import Mathlib

/-!
# Verification of the git-indexer structural chunker

Shallow embedding of `src/images/git-indexer/indexer.py` (redaction,
per-filetype chunkers, dispatch, oversize guard) and proofs of the frozen
claims about it.

Strings are modelled as lists of characters (`Str`).  Python library
functions used by the source (`str.splitlines`, `str.strip`, `re.sub` for
the three concrete secret patterns, `re.split` for the YAML document
separator, …) are modelled executably below; whitespace is modelled as the
six ASCII whitespace characters and line terminators as `\n`, `\r\n`,
`\r`, `\v`, `\f` (the exotic Unicode terminators recognised by Python are
not used by any input considered here).  The YAML library
(`yaml.safe_load`, `yaml.dump`) is an external collaborator and is
modelled as an abstract oracle (`Yaml`) over a Python-value type `PyObj`;
theorems about the YAML chunkers are stated for every oracle.
-/

abbrev Str := List Char

/-- The six ASCII whitespace characters (Python `str.strip` default set /
`re` `\s` on ASCII text): space, tab, `\n`, `\r`, `\v`, `\f`. -/
def isSpace (c : Char) : Bool :=
  c = ' ' || c = '\t' || c = '\n' || c = '\r' || c = Char.ofNat 11 || c = Char.ofNat 12

/-- Line-terminator characters recognised by `str.splitlines`
(restricted to `\n`, `\r`, `\v`, `\f`; `\r\n` is handled as a pair). -/
def isBreak (c : Char) : Bool :=
  c = '\n' || c = '\r' || c = Char.ofNat 11 || c = Char.ofNat 12

/-- Python `str.lstrip()`. -/
def pyLstrip (l : Str) : Str := l.dropWhile isSpace

/-- Python `str.rstrip()`. -/
def pyRstrip (l : Str) : Str := (l.reverse.dropWhile isSpace).reverse

/-- Python `str.strip()`. -/
def pyStrip (l : Str) : Str := pyRstrip (pyLstrip l)

/-- Concatenate a list of strings (Python `"".join`). -/
def joinL (ls : List Str) : Str := ls.foldr (· ++ ·) []

/-- Worker for `splitLinesKeep`: `cur` holds the (reversed) characters of
the line being accumulated.  A final character always closes the last
line, whether or not it is a terminator. -/
def slGo (cur : Str) : Str → List Str
  | [] => if cur = [] then [] else [cur.reverse]
  | [c] => [cur.reverse ++ [c]]
  | c :: c2 :: rest =>
    if c = '\r' then
      if c2 = '\n' then (cur.reverse ++ ['\r', '\n']) :: slGo [] rest
      else (cur.reverse ++ ['\r']) :: slGo [] (c2 :: rest)
    else if isBreak c then (cur.reverse ++ [c]) :: slGo [] (c2 :: rest)
    else slGo (c :: cur) (c2 :: rest)

/-- Python `str.splitlines(keepends=True)`. -/
def splitLinesKeep (l : Str) : List Str := slGo [] l

/-- Python `sub in s` (substring containment). -/
def isSubstrOf (pat : Str) : Str → Bool
  | [] => decide (pat = [])
  | l@(_ :: rest) => pat.isPrefixOf l || isSubstrOf pat rest

/-- Case-insensitive prefix test against an already-lowercase pattern. -/
def ciPrefix (pat : Str) (l : Str) : Bool :=
  decide ((l.take pat.length).map Char.toLower = pat)

/-- All characters that are not whitespace, in order (used to state
"reconstruction up to whitespace normalisation"). -/
def filterNonWs (l : Str) : Str := l.filter (fun c => !isSpace c)

-- ── Redaction (`SECRET_PATTERNS`, `redact_secrets`) ─────────────────

/-- Length matched by `\s*[:=]\s*\S+` at the head of `l`, if any.
The character classes are disjoint, so the greedy Python semantics are
deterministic maximal munch. -/
def sepValLen (l : Str) : Option Nat :=
  let w1 := (l.takeWhile isSpace).length
  match l.drop w1 with
  | [] => none
  | c :: rest =>
    if c = ':' || c = '=' then
      let w2 := (rest.takeWhile isSpace).length
      let v := ((rest.drop w2).takeWhile (fun c => !isSpace c)).length
      if 1 ≤ v then some (w1 + 1 + w2 + v) else none
    else none

/-- The alternation of secret keywords in the first pattern, in source
order. -/
def secretKeywords : List Str :=
  ["token".data, "password".data, "secret".data, "apikey".data,
   "api_key".data, "client_secret".data, "authorization".data]

/-- Match length at the head of `l` for
`(token|password|secret|…)\s*[:=]\s*\S+` with `re.IGNORECASE`. -/
def matchPat1At (l : Str) : Option Nat :=
  secretKeywords.findSome? fun kw =>
    if ciPrefix kw l then
      (sepValLen (l.drop kw.length)).map (fun n => kw.length + n)
    else none

/-- Match length at the head of `l` for `Bearer\s+\S+` with
`re.IGNORECASE`. -/
def matchPat2At (l : Str) : Option Nat :=
  if ciPrefix "bearer".data l then
    let r := l.drop 6
    let w := (r.takeWhile isSpace).length
    let v := ((r.drop w).takeWhile (fun c => !isSpace c)).length
    if 1 ≤ w && 1 ≤ v then some (6 + w + v) else none
  else none

/-- Characters matched by `[A-Z ]`. -/
def isUpperOrBlank (c : Char) : Bool := ('A' ≤ c && c ≤ 'Z') || c = ' '

/-- Match length at the head of `l` for `-----END[A-Z ]+-----`. -/
def endMarkLen (l : Str) : Option Nat :=
  if "-----END".data.isPrefixOf l then
    let r := l.drop 8
    let a := (r.takeWhile isUpperOrBlank).length
    if 1 ≤ a && "-----".data.isPrefixOf (r.drop a) then some (8 + a + 5)
    else none
  else none

/-- Smallest offset `k` at which `-----END[A-Z ]+-----` matches inside
`l`, together with that match's length (the lazy `[\s\S]*?` search). -/
def findEndMark : Str → Option (Nat × Nat)
  | [] => none
  | l@(_ :: rest) =>
    match endMarkLen l with
    | some m => some (0, m)
    | none => (findEndMark rest).map (fun p => (p.1 + 1, p.2))

/-- Match length at the head of `l` for
`-----BEGIN[A-Z ]+-----[\s\S]*?-----END[A-Z ]+-----`. -/
def matchPat3At (l : Str) : Option Nat :=
  if "-----BEGIN".data.isPrefixOf l then
    let r := l.drop 10
    let a := (r.takeWhile isUpperOrBlank).length
    if 1 ≤ a && "-----".data.isPrefixOf (r.drop a) then
      match findEndMark (r.drop (a + 5)) with
      | some (k, m) => some (10 + a + 5 + k + m)
      | none => none
    else none
  else none

/-- The replacement function of `redact_secrets`:
`m.group(0).split(":")[0] + ": <REDACTED>" if ":" in m.group(0) else
"<REDACTED>"`. -/
def replFn (matched : Str) : Str :=
  if matched.contains ':' then
    matched.takeWhile (fun c => c ≠ ':') ++ ": <REDACTED>".data
  else "<REDACTED>".data

/-- Fuelled worker for `re.sub`: scan left to right, replacing each
leftmost match and resuming after it.  All three patterns only ever match
at least one character, so fuel `l.length` always suffices. -/
def subGo (matchAt : Str → Option Nat) : Nat → Str → Str
  | _, [] => []
  | 0, l => l
  | fuel + 1, c :: cs =>
    match matchAt (c :: cs) with
    | some n =>
      if 1 ≤ n then
        replFn ((c :: cs).take n) ++ subGo matchAt fuel ((c :: cs).drop n)
      else c :: subGo matchAt fuel cs
    | none => c :: subGo matchAt fuel cs

/-- Python `pat.sub(repl, l)` for one of the three secret patterns. -/
def pySub (matchAt : Str → Option Nat) (l : Str) : Str :=
  subGo matchAt l.length l

/-- `redact_secrets`: apply the three pattern substitutions in order. -/
def redact_secrets (l : Str) : Str :=
  pySub matchPat3At (pySub matchPat2At (pySub matchPat1At l))

/-- `True` iff the given pattern matches somewhere in `l`. -/
def hasMatch (matchAt : Str → Option Nat) : Str → Bool
  | [] => false
  | l@(_ :: rest) => (matchAt l).isSome || hasMatch matchAt rest

/-- No secret pattern matches anywhere in `l`. -/
def noSecretMatch (l : Str) : Bool :=
  !hasMatch matchPat1At l && !hasMatch matchPat2At l && !hasMatch matchPat3At l

-- ── Python objects and the YAML library oracle ──────────────────────

mutual

/-- Python values as returned by `yaml.safe_load`, restricted to the
shapes the indexer inspects: `None`, strings, string-keyed mappings, and
everything else (carrying only its truthiness). -/
inductive PyObj where
  | pyNone : PyObj
  | str : Str → PyObj
  | dict : PyEntries → PyObj
  | other : Bool → PyObj
deriving DecidableEq

/-- The entries of a Python mapping, in insertion order. -/
inductive PyEntries where
  | nil : PyEntries
  | cons : Str → PyObj → PyEntries → PyEntries
deriving DecidableEq

end

/-- `d.get(key)` on a Python mapping (first entry wins; parsed YAML
mappings have unique keys). -/
def PyEntries.lookup : PyEntries → Str → Option PyObj
  | .nil, _ => none
  | .cons k v r, key => if k = key then some v else PyEntries.lookup r key

/-- Build a mapping value from a list of entries. -/
def PyObj.dictOf (l : List (Str × PyObj)) : PyObj :=
  .dict (l.foldr (fun kv e => .cons kv.1 kv.2 e) .nil)

/-- Python truthiness of a `PyObj` (used by `obj.get("metadata", {}) or {}`). -/
def pyTruthy : PyObj → Bool
  | .pyNone => false
  | .str s => !s.isEmpty
  | .dict .nil => false
  | .dict (.cons _ _ _) => true
  | .other t => t

/-- The YAML library as an abstract oracle: `safeLoad` models
`yaml.safe_load` (`.error` models a raised `yaml.YAMLError`) and `dump`
models `yaml.dump({key: value}, default_flow_style=False)`. -/
structure Yaml where
  safeLoad : Str → Except Unit PyObj
  dump : Str → PyObj → Str

-- ── Splitting multi-document YAML (`re.split(r"\n---\s*\n", text)`) ──

/-- Index of the last `\n` in `l`, if any. -/
def lastNlIdx (l : Str) : Option Nat :=
  (l.reverse.findIdx? (· = '\n')).map (fun k => l.length - 1 - k)

/-- Length of a match of `\n---\s*\n` at the head of `l`, if any.  The
greedy `\s*` backtracks to the last newline of the whitespace run. -/
def docSepLenAt (l : Str) : Option Nat :=
  match l with
  | '\n' :: rest =>
    if "---".data.isPrefixOf rest then
      let w := (rest.drop 3).takeWhile isSpace
      (lastNlIdx w).map (fun j => 4 + j + 1)
    else none
  | _ => none

/-- Fuelled worker for `re.split(r"\n---\s*\n", text)`. -/
def splitDocsGo : Nat → Str → Str → List Str
  | _, cur, [] => [cur.reverse]
  | 0, cur, l => [cur.reverse ++ l]
  | fuel + 1, cur, l@(c :: cs) =>
    match docSepLenAt l with
    | some n =>
      if 1 ≤ n then cur.reverse :: splitDocsGo fuel [] (l.drop n)
      else splitDocsGo fuel (c :: cur) cs
    | none => splitDocsGo fuel (c :: cur) cs

/-- `re.split(r"\n---\s*\n", text)`. -/
def splitDocs (text : Str) : List Str := splitDocsGo text.length [] text

-- ── Chunks ──────────────────────────────────────────────────────────

/-- One output chunk: the Python dict with a `text` entry and optional
metadata entries.  `nameSpace` models the source key `"namespace"` and
`sectionKey` the source key `"section"` (both are Lean keywords). -/
structure Chunk where
  chunk_type : Str := []
  text : Str := []
  heading : Option Str := none
  kind : Option PyObj := none
  name : Option PyObj := none
  nameSpace : Option PyObj := none
  sectionKey : Option Str := none
  language : Option Str := none
  package : Option Str := none
  symbol : Option Str := none
  symbol_type : Option Str := none
  imports : Option Str := none
  sub_chunk : Option Str := none
deriving DecidableEq

-- ── `is_k8s_secret` and the Kubernetes-YAML chunker ─────────────────

/-- `is_k8s_secret`: parse the document and test whether the top-level
`kind` equals `"Secret"`; parse failures and non-mapping documents are
`False`. -/
def is_k8s_secret (Y : Yaml) (doc : Str) : Bool :=
  match Y.safeLoad doc with
  | .ok (.dict l) =>
    match l.lookup "kind".data with
    | some (.str s) => decide (s = "Secret".data)
    | _ => false
  | _ => false

/-- The `kind`/`name`/`namespace` extraction of `chunk_k8s_yaml`.  A
raised `yaml.YAMLError` is caught (defaults kept); `meta.get` on a truthy
non-mapping `metadata` value raises an uncaught `AttributeError`,
modelled as `.error`. -/
def docMetadata (Y : Yaml) (doc : Str) : Except Unit (PyObj × PyObj × PyObj) :=
  match Y.safeLoad doc with
  | .error _ => .ok (.str [], .str [], .str [])
  | .ok (.dict l) =>
    let kind := (l.lookup "kind".data).getD (.str [])
    let meta0 := (l.lookup "metadata".data).getD (.dict .nil)
    let meta := if pyTruthy meta0 then meta0 else PyObj.dict .nil
    match meta with
    | .dict m =>
      .ok (kind, (m.lookup "name".data).getD (.str []),
           (m.lookup "namespace".data).getD (.str []))
    | _ => .error ()
  | .ok _ => .ok (.str [], .str [], .str [])

/-- Processing of one stripped, non-empty, non-Secret document:
redact and attach metadata. -/
def procK8sDoc (Y : Yaml) (doc : Str) : Except Unit Chunk :=
  (docMetadata Y doc).map fun m =>
    { text := redact_secrets doc, kind := some m.1,
      name := some m.2.1, nameSpace := some m.2.2 }

/-- The document loop of `chunk_k8s_yaml`. -/
def chunkK8sGo (Y : Yaml) : List Str → Except Unit (List Chunk)
  | [] => .ok []
  | doc :: rest =>
    let d := pyStrip doc
    if d = [] then chunkK8sGo Y rest
    else if is_k8s_secret Y d then chunkK8sGo Y rest
    else do
      let c ← procK8sDoc Y d
      let cs ← chunkK8sGo Y rest
      return c :: cs

/-- `chunk_k8s_yaml`. -/
def chunk_k8s_yaml (Y : Yaml) (text fp : Str) : Except Unit (List Chunk) :=
  chunkK8sGo Y (splitDocs text)

-- ── Token counting, Helm-values and generic chunkers ────────────────

/-- `count_tokens`: `len(text) // 4`. -/
def count_tokens (l : Str) : Nat := l.length / 4

/-- The per-key loop of `chunk_helm_values`: one redacted chunk per
top-level mapping entry, skipping entries whose serialisation counts as
zero tokens. -/
def helmSections (Y : Yaml) : PyEntries → List Chunk
  | .nil => []
  | .cons k v rest =>
    let s := redact_secrets (Y.dump k v)
    (if 1 ≤ count_tokens s then [{ text := s, sectionKey := some k : Chunk }]
     else []) ++ helmSections Y rest

/-- `chunk_helm_values`: one chunk per top-level key, with a whole-file
`section: root` fallback on parse failure, non-mapping input, or zero
emitted sections. -/
def chunk_helm_values (Y : Yaml) (text fp : Str) : List Chunk :=
  match Y.safeLoad text with
  | .error _ => [{ text := redact_secrets text, sectionKey := some "root".data }]
  | .ok (.dict l) =>
    let cs := helmSections Y l
    if cs = [] then [{ text := redact_secrets text, sectionKey := some "root".data }]
    else cs
  | .ok _ => [{ text := redact_secrets text, sectionKey := some "root".data }]

/-- The line-accumulation loop of `chunk_generic` (`T` is
`CHUNK_MAX_TOKENS`; `n` is the running token sum of `cur`). -/
def genericAccum (T : Nat) : List Str → List Str → Nat → List Chunk
  | [], cur, _ => if cur = [] then [] else [{ text := joinL cur }]
  | line :: rest, cur, n =>
    if T < n + count_tokens line ∧ cur ≠ [] then
      { text := joinL cur : Chunk } ::
        genericAccum T rest [line] (count_tokens line)
    else genericAccum T rest (cur ++ [line]) (n + count_tokens line)

/-- `chunk_generic`. -/
def chunk_generic (T : Nat) (text fp : Str) : List Chunk :=
  let text := redact_secrets text
  if count_tokens text ≤ T then [{ text := text }]
  else genericAccum T (splitLinesKeep text) [] 0

-- ── Markdown chunker ────────────────────────────────────────────────

/-- `re.match(r"^#{1,2}\s+", line)`. -/
def isHeadingLine (l : Str) : Bool :=
  match l with
  | '#' :: c :: rest =>
    isSpace c ||
      (c = '#' && match rest with | c2 :: _ => isSpace c2 | [] => false)
  | _ => false

/-- `line.strip().lstrip("#").strip()`. -/
def headingOf (line : Str) : Str :=
  pyStrip ((pyStrip line).dropWhile (· = '#'))

/-- A markdown section chunk: `{"text": f"# {heading}\n\n{body}",
"heading": heading}`. -/
def mdChunk (heading body : Str) : Chunk :=
  { text := "# ".data ++ heading ++ "\n\n".data ++ body, heading := some heading }

/-- Flush the accumulated section lines (emits nothing when the stripped
body is empty). -/
def mdFlush (heading : Str) (cur : List Str) : List Chunk :=
  if cur = [] then []
  else
    let body := pyStrip (joinL cur)
    if body = [] then [] else [mdChunk heading body]

/-- The line loop of `chunk_markdown`. -/
def mdGo : List Str → Str → List Str → List Chunk
  | [], h, cur => mdFlush h cur
  | line :: rest, h, cur =>
    if isHeadingLine line then mdFlush h cur ++ mdGo rest (headingOf line) []
    else mdGo rest h (cur ++ [line])

/-- `chunk_markdown`. -/
def chunk_markdown (text fp : Str) : List Chunk :=
  let cs := mdGo (splitLinesKeep text) fp []
  if cs = [] then [{ text := text, heading := some fp }] else cs

-- ── Go-aware chunking ───────────────────────────────────────────────

/-- ASCII `\w`. -/
def isWordChar (c : Char) : Bool :=
  ('a' ≤ c && c ≤ 'z') || ('A' ≤ c && c ≤ 'Z') || ('0' ≤ c && c ≤ '9') || c = '_'

/-- Decimal digits of a `Nat` (Python f-string interpolation of an int). -/
def natToStr (n : Nat) : Str := (Nat.repr n).data

/-- Join with a separator (Python `sep.join`). -/
def joinSep (sep : Str) : List Str → Str
  | [] => []
  | [x] => x
  | x :: xs => x ++ sep ++ joinSep sep xs

/-- Match of `package\s+(\w+)` at the head of `l`, returning the name. -/
def matchPackageAt (l : Str) : Option Str :=
  if "package".data.isPrefixOf l then
    let r := l.drop 7
    let w := (r.takeWhile isSpace).length
    let nm := (r.drop w).takeWhile isWordChar
    if 1 ≤ w ∧ 1 ≤ nm.length then some nm else none
  else none

/-- Scan for the first line start matching `^package\s+(\w+)`
(`re.search` with `re.MULTILINE`). -/
def extractPkgGo : Str → Bool → Option Str
  | [], _ => none
  | l@(c :: rest), atLS =>
    if atLS then
      match matchPackageAt l with
      | some nm => some nm
      | none => extractPkgGo rest (c = '\n')
    else extractPkgGo rest (c = '\n')

/-- `_extract_go_package`. -/
def _extract_go_package (text : Str) : Str := (extractPkgGo text true).getD []

/-- Fuelled removal of the maximal leading run of `//…\n` comment lines
(`re.sub(r"^(//[^\n]*\n)+", "", decl_text)`). -/
def dropGoDocGo : Nat → Str → Str
  | 0, l => l
  | fuel + 1, l =>
    if "//".data.isPrefixOf l then
      let body := (l.drop 2).takeWhile (· ≠ '\n')
      match l.drop (2 + body.length) with
      | '\n' :: rest => dropGoDocGo fuel rest
      | _ => l
    else l

def dropGoDocComments (l : Str) : Str := dropGoDocGo l.length l

/-- Match of `kw\s+(\w+)` at the head of `l`. -/
def matchKwName (kw : Str) (l : Str) : Option Str :=
  if kw.isPrefixOf l then
    let r := l.drop kw.length
    let w := (r.takeWhile isSpace).length
    let nm := (r.drop w).takeWhile isWordChar
    if 1 ≤ w ∧ 1 ≤ nm.length then some nm else none
  else none

/-- Match of `func\s+\([^)]+\)\s+(\w+)` (a Go method) at the head of
`l`, returning the method name. -/
def matchGoMethod (l : Str) : Option Str :=
  if "func".data.isPrefixOf l then
    let r := l.drop 4
    let w := (r.takeWhile isSpace).length
    if 1 ≤ w then
      match r.drop w with
      | '(' :: r2 =>
        let inner := r2.takeWhile (· ≠ ')')
        if 1 ≤ inner.length then
          match r2.drop inner.length with
          | ')' :: r3 =>
            let w2 := (r3.takeWhile isSpace).length
            let nm := (r3.drop w2).takeWhile isWordChar
            if 1 ≤ w2 ∧ 1 ≤ nm.length then some nm else none
          | _ => none
        else none
      | _ => none
    else none
  else none

/-- `_go_symbol_name`. -/
def _go_symbol_name (decl_text : Str) : Str × Str :=
  let stripped := pyLstrip (dropGoDocComments decl_text)
  match matchGoMethod stripped with
  | some nm => (nm, "method".data)
  | none =>
    match matchKwName "func".data stripped with
    | some nm => (nm, "function".data)
    | none =>
      match matchKwName "type".data stripped with
      | some nm => (nm, "type".data)
      | none =>
        match matchKwName "var".data stripped with
        | some nm => (nm, "var".data)
        | none =>
          match matchKwName "const".data stripped with
          | some nm => (nm, "const".data)
          | none => ([], "unknown".data)

/-- `re.findall(r'"([^"]+)"', preamble)`: the quoted import paths. -/
def findQuoted : Nat → Str → List Str
  | 0, _ => []
  | _, [] => []
  | fuel + 1, '"' :: rest =>
    let inner := rest.takeWhile (· ≠ '"')
    if 1 ≤ inner.length then
      match rest.drop inner.length with
      | '"' :: rest2 => inner :: findQuoted fuel rest2
      | _ => []
    else findQuoted fuel rest
  | fuel + 1, _ :: rest => findQuoted fuel rest

/-- The import summary attached to the Go file-overview chunk. -/
def goImportSummary (preamble : Str) : Str :=
  let imports := findQuoted preamble.length preamble
  let base := joinSep ", ".data (imports.take 20)
  if 20 < imports.length then
    base ++ " (+".data ++ natToStr (imports.length - 20) ++ " more)".data
  else base

/-- Largest index `k < j` with `text[k] = '\n'`
(`text.rfind('\n', 0, j)`; `none` models `-1`). -/
def rfindNlBefore (text : Str) : Nat → Option Nat
  | 0 => none
  | j + 1 => if text.getD j ' ' = '\n' then some j else rfindNlBefore text j

/-- The walk-back loop of `chunk_go`: extend a declaration start upward
over immediately preceding `//` comment lines.  `j` is the Python loop
variable (entered with `j ≥ 0`), `ds` the current `decl_start`. -/
def walkBackGo (text : Str) : Nat → Nat → Nat → Nat
  | 0, _, ds => ds
  | fuel + 1, j, ds =>
    let pn := rfindNlBefore text j
    let lineChars :=
      match pn with
      | some p => (text.take (j + 1)).drop (p + 1)
      | none => text.take (j + 1)
    if "//".data.isPrefixOf (pyStrip lineChars) then
      match pn with
      | some 0 => 1
      | some (p + 1) => walkBackGo text fuel p (p + 2)
      | none => 0
    else ds

/-- `decl_start` for a declaration detected at line start `i`. -/
def walkBack (text : Str) (i : Nat) : Nat :=
  if i = 0 then 0 else walkBackGo text i (i - 1) i

/-- `re.match(r"(func |type |var |const )", rest)`. -/
def goKwAt (l : Str) : Bool :=
  "func ".data.isPrefixOf l || "type ".data.isPrefixOf l ||
    "var ".data.isPrefixOf l || "const ".data.isPrefixOf l

/-- The lexical state of the `chunk_go` scanner. -/
structure GoScanState where
  depth : Nat := 0
  inStr : Bool := false
  inRaw : Bool := false
  inLC : Bool := false
  inBC : Bool := false
  lineStart : Nat := 0
deriving DecidableEq

/-- The character scan of `chunk_go`, collecting declaration boundary
positions (in reverse).  Mirrors the source's branch order exactly,
including the quirk that `//` or `/*` opens a comment even inside a
string literal. -/
def goScanGo (text : Str) : Nat → Nat → GoScanState → List Nat → List Nat
  | 0, _, _, acc => acc.reverse
  | fuel + 1, i, st, acc =>
    if i < text.length then
      let ch := text.getD i ' '
      if ch = '\n' then
        goScanGo text fuel (i + 1) { st with inLC := false, lineStart := i + 1 } acc
      else if st.inLC then goScanGo text fuel (i + 1) st acc
      else if st.inBC then
        if ch = '*' ∧ i + 1 < text.length ∧ text.getD (i + 1) ' ' = '/' then
          goScanGo text fuel (i + 2) { st with inBC := false } acc
        else goScanGo text fuel (i + 1) st acc
      else if ch = '/' ∧ i + 1 < text.length ∧ text.getD (i + 1) ' ' = '/' then
        goScanGo text fuel (i + 2) { st with inLC := true } acc
      else if ch = '/' ∧ i + 1 < text.length ∧ text.getD (i + 1) ' ' = '*' then
        goScanGo text fuel (i + 2) { st with inBC := true } acc
      else if st.inStr then
        if ch = '\\' ∧ i + 1 < text.length then goScanGo text fuel (i + 2) st acc
        else if ch = '"' then goScanGo text fuel (i + 1) { st with inStr := false } acc
        else goScanGo text fuel (i + 1) st acc
      else if st.inRaw then
        if ch = '`' then goScanGo text fuel (i + 1) { st with inRaw := false } acc
        else goScanGo text fuel (i + 1) st acc
      else if ch = '"' then goScanGo text fuel (i + 1) { st with inStr := true } acc
      else if ch = '`' then goScanGo text fuel (i + 1) { st with inRaw := true } acc
      else
        let st1 :=
          if ch = '{' then { st with depth := st.depth + 1 }
          else if ch = '}' then { st with depth := st.depth - 1 }
          else st
        let acc1 :=
          if st1.depth = 0 ∧ i = st.lineStart ∧ goKwAt (text.drop i) then
            walkBack text i :: acc
          else acc
        goScanGo text fuel (i + 1) st1 acc1
    else acc.reverse

/-- The top-level declaration boundaries of a Go file. -/
def goBoundaries (text : Str) : List Nat :=
  goScanGo text text.length 0 {} []

/-- The declaration slices `text[b:end]` determined by a boundary list
(the last one extends to the end of the file). -/
def declSegs (text : Str) : List Nat → List Str
  | [] => []
  | [b] => [text.drop b]
  | b :: b' :: rest => ((text.drop b).take (b' - b)) :: declSegs text (b' :: rest)

/-- `f"{sym_type} {sym_name}"` for every exported (uppercase-initial)
declaration, in order. -/
def goExportedSymbols (text : Str) (bs : List Nat) : List Str :=
  (declSegs text bs).filterMap fun seg =>
    let s := _go_symbol_name seg
    match s.1 with
    | c :: _ => if 'A' ≤ c ∧ c ≤ 'Z' then some (s.2 ++ [' '] ++ s.1) else none
    | [] => none

/-- The per-declaration chunks of `chunk_go`. -/
def goDeclChunks (text : Str) (package_name : Str) (bs : List Nat) : List Chunk :=
  (declSegs text bs).enum.map fun p =>
    let dt := pyRstrip p.2
    let s := _go_symbol_name dt
    { text := dt, language := some "go".data, package := some package_name,
      symbol := some (if s.1 = [] then "decl_".data ++ natToStr p.1 else s.1),
      symbol_type := some s.2 }

/-- The preamble slice `text[:boundaries[0]]` (empty when there are no
boundaries). -/
def goPreambleSlice (text : Str) : Str :=
  match goBoundaries text with
  | [] => []
  | b :: _ => text.take b

/-- `chunk_go`. -/
def chunk_go (text fp : Str) : List Chunk :=
  let package_name := _extract_go_package text
  let bs := goBoundaries text
  match bs with
  | [] =>
    [{ text := text, language := some "go".data, package := some package_name,
       symbol := some fp, symbol_type := some "file".data }]
  | b :: _ =>
    let preamble := pyStrip (text.take b)
    let overview : List Chunk :=
      if preamble = [] then []
      else
        let symbols := goExportedSymbols text bs
        let overview_lines :=
          [preamble, []] ++
            (if symbols = [] then []
             else [("// Exported symbols: ".data ++ joinSep ", ".data symbols)])
        [{ text := joinSep "\n".data overview_lines, language := some "go".data,
           package := some package_name, symbol := some fp,
           symbol_type := some "file_overview".data,
           imports := some (goImportSummary preamble) }]
    overview ++ goDeclChunks text package_name bs

-- ── Python-aware chunking ───────────────────────────────────────────

/-- Length of the maximal leading run of complete `#…\n` comment lines. -/
def commentRunGo : Nat → Str → Nat
  | 0, _ => 0
  | fuel + 1, l =>
    match l with
    | '#' :: rest =>
      let body := rest.takeWhile (· ≠ '\n')
      match rest.drop body.length with
      | '\n' :: _ => (1 + body.length + 1) + commentRunGo fuel (rest.drop (body.length + 1))
      | _ => 0
    | _ => 0

/-- Match length at a line start for
`^((?:#[^\n]*\n)*)(?:class |def |async def )`: the comment run must lead
exactly to a declaration keyword. -/
def matchPyDeclAt (l : Str) : Option Nat :=
  let k := commentRunGo l.length l
  let r := l.drop k
  if "class ".data.isPrefixOf r then some (k + 6)
  else if "def ".data.isPrefixOf r then some (k + 4)
  else if "async def ".data.isPrefixOf r then some (k + 10)
  else none

/-- `re.finditer` scan for the Python declaration pattern: try each line
start left to right, consume matches, record their start positions. -/
def pyScanGo (text : Str) : Nat → Nat → Bool → List Nat → List Nat
  | 0, _, _, acc => acc.reverse
  | fuel + 1, i, atLS, acc =>
    if i < text.length then
      if atLS then
        match matchPyDeclAt (text.drop i) with
        | some n => pyScanGo text fuel (i + n) false (i :: acc)
        | none => pyScanGo text fuel (i + 1) (text.getD i ' ' = '\n') acc
      else pyScanGo text fuel (i + 1) (text.getD i ' ' = '\n') acc
    else acc.reverse

/-- The column-0 filter applied to each match (always true, since a
`re.MULTILINE` `^` match already starts at its line start; modelled
faithfully anyway). -/
def pyBoundaryFilter (text : Str) (p : Nat) : Bool :=
  let ls := match rfindNlBefore text p with | some q => q + 1 | none => 0
  let leading := (text.take p).drop ls
  pyStrip leading = [] || "#".data.isPrefixOf leading

/-- The top-level declaration boundaries of a Python file. -/
def pyBoundaries (text : Str) : List Nat :=
  (pyScanGo text text.length 0 true []).filter (pyBoundaryFilter text)

/-- `re.sub(r"^(#[^\n]*\n)+", "", decl_text)` (anchored, so at most the
leading run is removed). -/
def dropPyComments (l : Str) : Str := l.drop (commentRunGo l.length l)

/-- First index of `pat` as a prefix of a suffix of `l`. -/
def findSubIdx (pat : Str) : Str → Option Nat
  | [] => if pat = [] then some 0 else none
  | l@(_ :: rest) =>
    if pat.isPrefixOf l then some 0 else (findSubIdx pat rest).map (· + 1)

/-- `re.sub(r'^"""[\s\S]*?"""\n', "", stripped)`: drop a leading
docstring block, lazily matched. -/
def dropPyDocstring (l : Str) : Str :=
  if "\"\"\"".data.isPrefixOf l then
    match findSubIdx "\"\"\"\n".data (l.drop 3) with
    | some j => l.drop (3 + j + 4)
    | none => l
  else l

/-- `(?:async\s+)?def\s+(\w+)`. -/
def matchAsyncDef (l : Str) : Option Str :=
  let tryA :=
    if "async".data.isPrefixOf l then
      let r := l.drop 5
      let w := (r.takeWhile isSpace).length
      if 1 ≤ w then matchKwName "def".data (r.drop w) else none
    else none
  match tryA with
  | some nm => some nm
  | none => matchKwName "def".data l

/-- `_extract_py_symbol`. -/
def _extract_py_symbol (decl_text : Str) : Str × Str :=
  let s1 := pyLstrip (dropPyComments decl_text)
  let s2 := pyLstrip (dropPyDocstring s1)
  match matchKwName "class".data s2 with
  | some nm => (nm, "class".data)
  | none =>
    match matchAsyncDef s2 with
    | some nm => (nm, "function".data)
    | none => ([], "unknown".data)

/-- The preamble slice `text[:boundaries[0]]` for the Python chunker. -/
def pyPreambleSlice (text : Str) : Str :=
  match pyBoundaries text with
  | [] => []
  | b :: _ => text.take b

/-- `chunk_python`. -/
def chunk_python (text fp : Str) : List Chunk :=
  let bs := pyBoundaries text
  match bs with
  | [] =>
    [{ text := text, language := some "python".data, symbol := some fp,
       symbol_type := some "file".data }]
  | b :: _ =>
    let preamble := pyStrip (text.take b)
    (if preamble = [] then []
     else [{ text := preamble, language := some "python".data, symbol := some fp,
             symbol_type := some "file_overview".data : Chunk }]) ++
      (declSegs text bs).enum.map fun p =>
        let dt := pyRstrip p.2
        let s := _extract_py_symbol dt
        { text := dt, language := some "python".data,
          symbol := some (if s.1 = [] then "decl_".data ++ natToStr p.1 else s.1),
          symbol_type := some s.2 }

-- ── Dispatch and the oversize guard (`classify_and_chunk`) ──────────

/-- `Path(filepath).name`: the final path component. -/
def pathName (fp : Str) : Str :=
  ((fp.splitOn '/').filter (· ≠ [])).getLastD []

/-- `Path(filepath).suffix` computed from the name: the part from the
last dot, unless that dot is the first or last character. -/
def pathSuffix (nm : Str) : Str :=
  match (nm.reverse.findIdx? (· = '.')).map (fun r => nm.length - 1 - r) with
  | some i => if 0 < i ∧ i + 1 < nm.length then nm.drop i else []
  | none => []

def toLowerStr (l : Str) : Str := l.map Char.toLower

/-- Attach the dispatch tag (`{"chunk_type": t, **c}`). -/
def tagChunks (t : Str) (cs : List Chunk) : List Chunk :=
  cs.map fun c => { c with chunk_type := t }

/-- The sub-chunk accumulation loop of the oversize guard (`B` is
`EMBED_MAX_CHARS`, `n` the running character count of `cur`). -/
def resplit (B : Nat) : List Str → List Str → Nat → List Str
  | [], cur, _ => if cur = [] then [] else [joinL cur]
  | line :: rest, cur, n =>
    if B < n + line.length ∧ cur ≠ [] then
      joinL cur :: resplit B rest [line] line.length
    else resplit B rest (cur ++ [line]) (n + line.length)

/-- The sub-parts an oversized chunk text is split into. -/
def subParts (B : Nat) (txt : Str) : List Str :=
  resplit B (splitLinesKeep txt) [] 0

/-- The oversize guard applied to one chunk: pass through when within
budget, otherwise re-split by lines, attaching `sub_chunk` markers when
more than one part results. -/
def oversizeGuard (B : Nat) (c : Chunk) : List Chunk :=
  if c.text.length ≤ B then [c]
  else
    let parts := subParts B c.text
    parts.enum.map fun p =>
      if 1 < parts.length then
        { c with text := p.2,
                 sub_chunk := some (natToStr (p.1 + 1) ++ ['/'] ++ natToStr parts.length) }
      else { c with text := p.2 }

/-- `classify_and_chunk`: dispatch on extension/name, then apply the
oversize guard to every produced chunk.  The result is `.error` exactly
when the Kubernetes-YAML chunker raises. -/
def classify_and_chunk (Y : Yaml) (B T : Nat) (text fp : Str) :
    Except Unit (List Chunk) :=
  let nameL := toLowerStr (pathName fp)
  let ext := toLowerStr (pathSuffix (pathName fp))
  let tagged : Except Unit (List Chunk) :=
    if ext = ".md".data ∨ ext = ".mmd".data then
      .ok (tagChunks "markdown".data (chunk_markdown text fp))
    else if ext = ".go".data then
      .ok (tagChunks "go-code".data (chunk_go text fp))
    else if ext = ".py".data then
      .ok (tagChunks "python-code".data (chunk_python text fp))
    else if ext = ".yaml".data ∨ ext = ".yml".data then
      if isSubstrOf "values".data nameL ∨ nameL = "chart.yaml".data then
        .ok (tagChunks "helm-values".data (chunk_helm_values Y text fp))
      else (chunk_k8s_yaml Y text fp).map (tagChunks "k8s-yaml".data)
    else .ok (tagChunks "generic".data (chunk_generic T text fp))
  tagged.map fun cs => cs.flatMap (oversizeGuard B)

-- ════════════════════════════════════════════════════════════════════
-- Lemmas
-- ════════════════════════════════════════════════════════════════════

theorem joinL_nil : joinL [] = [] := rfl

theorem joinL_cons (x : Str) (xs : List Str) : joinL (x :: xs) = x ++ joinL xs := rfl

theorem joinL_append : ∀ a b : List Str, joinL (a ++ b) = joinL a ++ joinL b
  | [], _ => rfl
  | x :: xs, b => by
    simp only [List.cons_append, joinL_cons, joinL_append xs b, List.append_assoc]

theorem slGo_join : ∀ (l cur : Str), joinL (slGo cur l) = cur.reverse ++ l
  | [], cur => by
    by_cases h : cur = [] <;> simp [slGo, h, joinL]
  | [c], cur => by simp [slGo, joinL]
  | c :: c2 :: rest, cur => by
    by_cases h1 : c = '\r'
    · by_cases h2 : c2 = '\n'
      · subst h1; subst h2
        simp [slGo, joinL_cons, slGo_join rest []]
      · subst h1
        simp [slGo, h2, joinL_cons, slGo_join (c2 :: rest) []]
    · by_cases h3 : isBreak c = true
      · simp [slGo, h1, h3, joinL_cons, slGo_join (c2 :: rest) []]
      · simp [slGo, h1, h3, slGo_join (c2 :: rest) (c :: cur)]

theorem joinL_splitLinesKeep (l : Str) : joinL (splitLinesKeep l) = l := by
  simpa [splitLinesKeep] using slGo_join l []

theorem filterNonWs_append (a b : Str) :
    filterNonWs (a ++ b) = filterNonWs a ++ filterNonWs b :=
  List.filter_append ..

theorem filterNonWs_dropWhile (l : Str) :
    filterNonWs (l.dropWhile isSpace) = filterNonWs l := by
  induction l with
  | nil => rfl
  | cons c r ih =>
    by_cases h : isSpace c = true <;>
      simp [List.dropWhile_cons, h, filterNonWs, List.filter_cons] at ih ⊢ <;>
      simpa [filterNonWs, h] using ih

theorem filterNonWs_pyLstrip (l : Str) : filterNonWs (pyLstrip l) = filterNonWs l :=
  filterNonWs_dropWhile l

theorem filterNonWs_reverse (l : Str) :
    filterNonWs l.reverse = (filterNonWs l).reverse :=
  List.filter_reverse ..

theorem filterNonWs_pyRstrip (l : Str) : filterNonWs (pyRstrip l) = filterNonWs l := by
  have h := filterNonWs_dropWhile l.reverse
  calc filterNonWs (pyRstrip l)
      = (filterNonWs (l.reverse.dropWhile isSpace)).reverse := filterNonWs_reverse _
    _ = (filterNonWs l.reverse).reverse := by rw [h]
    _ = (filterNonWs l).reverse.reverse := by rw [filterNonWs_reverse]
    _ = filterNonWs l := List.reverse_reverse _

theorem filterNonWs_pyStrip (l : Str) : filterNonWs (pyStrip l) = filterNonWs l := by
  unfold pyStrip
  rw [filterNonWs_pyRstrip, filterNonWs_pyLstrip]

-- ── Redaction lemmas ────────────────────────────────────────────────

theorem subGo_of_not_hasMatch (f : Str → Option Nat) :
    ∀ (fuel : Nat) (l : Str), hasMatch f l = false → subGo f fuel l = l
  | _, [], _ => by cases ‹Nat› <;> rfl
  | 0, _ :: _, _ => rfl
  | fuel + 1, c :: cs, h => by
    have h1 : (f (c :: cs)).isSome = false ∧ hasMatch f cs = false := by
      simpa [hasMatch] using h
    cases hf : f (c :: cs) with
    | some n => simp [hf] at h1
    | none => simp [subGo, hf, subGo_of_not_hasMatch f fuel cs h1.2]

theorem pySub_of_not_hasMatch (f : Str → Option Nat) (l : Str)
    (h : hasMatch f l = false) : pySub f l = l :=
  subGo_of_not_hasMatch f l.length l h

/-- On a text with no secret-pattern match, `redact_secrets` is the
identity. -/
theorem redact_secrets_of_noMatch (l : Str) (h : noSecretMatch l = true) :
    redact_secrets l = l := by
  have h123 : (hasMatch matchPat1At l = false ∧ hasMatch matchPat2At l = false) ∧
      hasMatch matchPat3At l = false := by
    simpa [noSecretMatch] using h
  obtain ⟨⟨h1, h2⟩, h3⟩ := h123
  unfold redact_secrets
  rw [pySub_of_not_hasMatch _ _ h1, pySub_of_not_hasMatch _ _ h2,
    pySub_of_not_hasMatch _ _ h3]

-- ════════════════════════════════════════════════════════════════════
-- Claims C6 and C7 (redaction)
-- ════════════════════════════════════════════════════════════════════

/-- C6, counterexample: `redact_secrets` is *not* idempotent.  On
`"token=a:b"` the first pass yields `"token=a: <REDACTED>"`, and a second
pass matches `token=a:` again (greedy `\S+` stops at the space) and
appends a second marker. -/
theorem redact_secrets_not_idempotent :
    redact_secrets (redact_secrets "token=a:b".data) ≠ redact_secrets "token=a:b".data := by
  decide

/-- C6, amended: on any text in which no secret pattern matches,
`redact_secrets` is the identity, hence idempotent there. -/
theorem redact_secrets_idem_of_noMatch (l : Str) (h : noSecretMatch l = true) :
    redact_secrets (redact_secrets l) = redact_secrets l := by
  rw [redact_secrets_of_noMatch l h, redact_secrets_of_noMatch l h]

theorem redact_secrets_idem_of_noMatch_witness :
    noSecretMatch "hello world".data = true ∧
      redact_secrets (redact_secrets "hello world".data) = redact_secrets "hello world".data :=
  ⟨by decide, redact_secrets_idem_of_noMatch "hello world".data (by decide)⟩

/-- C7, counterexample: redaction can lengthen the text: `"Bearer a"`
(8 characters) becomes `"<REDACTED>"` (10 characters). -/
theorem redact_secrets_length_can_grow :
    ¬ (redact_secrets "Bearer a".data).length ≤ "Bearer a".data.length := by decide

/-- C7, amended: on any text in which no secret pattern matches, the
output of `redact_secrets` has exactly the input's length (it is the
identity there); in general the output may be longer than the input. -/
theorem redact_secrets_length_of_noMatch (l : Str) (h : noSecretMatch l = true) :
    (redact_secrets l).length = l.length := by
  rw [redact_secrets_of_noMatch l h]

theorem redact_secrets_length_of_noMatch_witness :
    noSecretMatch "plain: ".data = true ∧
      (redact_secrets "plain: ".data).length = "plain: ".data.length :=
  ⟨by decide, redact_secrets_length_of_noMatch "plain: ".data (by decide)⟩

-- ── Kubernetes-YAML characterisation (C2) ───────────────────────────

/-- Emit one chunk per document via `f`, propagating the first raised
error (the specification-side combinator compared against the source's
document loop). -/
def emitEach (f : Str → Except Unit Chunk) : List Str → Except Unit (List Chunk)
  | [] => .ok []
  | d :: ds => do
    let c ← f d
    let cs ← emitEach f ds
    return c :: cs

theorem chunkK8sGo_eq (Y : Yaml) : ∀ docs : List Str,
    chunkK8sGo Y docs =
      emitEach (procK8sDoc Y)
        ((docs.map pyStrip).filter (fun d => !d.isEmpty && !is_k8s_secret Y d))
  | [] => rfl
  | doc :: rest => by
    by_cases h1 : pyStrip doc = []
    · simp [chunkK8sGo, h1, chunkK8sGo_eq Y rest, List.filter_cons]
    · by_cases h2 : is_k8s_secret Y (pyStrip doc) = true
      · simp [chunkK8sGo, h1, h2, chunkK8sGo_eq Y rest, List.filter_cons,
          List.isEmpty_iff]
      · simp [chunkK8sGo, h1, h2, chunkK8sGo_eq Y rest, List.filter_cons,
          List.isEmpty_iff, emitEach]

/-- C2: the Kubernetes-YAML chunker processes exactly the stripped,
non-empty, non-`Secret` documents of the split input, in order — every
document whose parsed top-level `kind` equals `"Secret"` is removed by
the filter and so contributes zero chunks, while every other (non-empty)
sibling document is passed to `procK8sDoc`, which emits exactly one
chunk for it (its redacted text plus metadata), unless the extraction
raises.  Stated for every YAML oracle. -/
theorem chunk_k8s_yaml_secret_exclusion (Y : Yaml) (text fp : Str) :
    chunk_k8s_yaml Y text fp =
      emitEach (procK8sDoc Y)
        (((splitDocs text).map pyStrip).filter
          (fun d => !d.isEmpty && !is_k8s_secret Y d)) :=
  chunkK8sGo_eq Y (splitDocs text)

-- ── Non-emptiness of every chunker (towards C5) ─────────────────────

theorem declSegs_ne_nil (text : Str) (b : Nat) (bs : List Nat) :
    declSegs text (b :: bs) ≠ [] := by
  cases bs <;> simp [declSegs]

theorem chunk_markdown_ne_nil (text fp : Str) : chunk_markdown text fp ≠ [] := by
  unfold chunk_markdown
  by_cases h : mdGo (splitLinesKeep text) fp [] = [] <;> simp [h]

theorem chunk_go_ne_nil (text fp : Str) : chunk_go text fp ≠ [] := by
  unfold chunk_go
  cases h : goBoundaries text with
  | nil => simp
  | cons b bs =>
    have := declSegs_ne_nil text b bs
    simp [goDeclChunks, this]

theorem chunk_python_ne_nil (text fp : Str) : chunk_python text fp ≠ [] := by
  unfold chunk_python
  cases h : pyBoundaries text with
  | nil => simp
  | cons b bs =>
    have := declSegs_ne_nil text b bs
    simp [this]

theorem chunk_helm_values_ne_nil (Y : Yaml) (text fp : Str) :
    chunk_helm_values Y text fp ≠ [] := by
  unfold chunk_helm_values
  cases h : Y.safeLoad text with
  | error e => simp
  | ok obj =>
    cases obj with
    | dict l => by_cases h2 : helmSections Y l = [] <;> simp [h2]
    | pyNone => simp
    | str s => simp
    | other t => simp

theorem genericAccum_ne_nil (T : Nat) : ∀ (lines cur : List Str) (n : Nat),
    lines ≠ [] ∨ cur ≠ [] → genericAccum T lines cur n ≠ []
  | [], cur, n, h => by
    rcases h with h | h
    · exact absurd rfl h
    · simp [genericAccum, h]
  | line :: rest, cur, n, _ => by
    by_cases hc : T < n + count_tokens line ∧ cur ≠ []
    · simp [genericAccum, hc]
    · have := genericAccum_ne_nil T rest (cur ++ [line]) (n + count_tokens line)
        (Or.inr (by simp))
      simp [genericAccum, hc, this]

theorem splitLinesKeep_ne_nil (l : Str) (h : l ≠ []) : splitLinesKeep l ≠ [] := by
  intro hc
  apply h
  have := joinL_splitLinesKeep l
  rw [hc] at this
  exact this.symm

theorem chunk_generic_ne_nil (T : Nat) (text fp : Str) :
    chunk_generic T text fp ≠ [] := by
  unfold chunk_generic
  by_cases h : count_tokens (redact_secrets text) ≤ T
  · simp [h]
  · have hne : redact_secrets text ≠ [] := by
      intro hx
      rw [hx] at h
      exact h (by simp [count_tokens])
    have := genericAccum_ne_nil T (splitLinesKeep (redact_secrets text)) [] 0
      (Or.inl (splitLinesKeep_ne_nil _ hne))
    simp [h, this]

-- ── Oversize-guard lemmas ───────────────────────────────────────────

theorem resplit_join (B : Nat) : ∀ (lines cur : List Str) (n : Nat),
    joinL (resplit B lines cur n) = joinL cur ++ joinL lines
  | [], cur, n => by
    by_cases h : cur = [] <;> simp [resplit, h, joinL_cons, joinL_nil]
  | line :: rest, cur, n => by
    by_cases hc : B < n + line.length ∧ cur ≠ []
    · rw [resplit, if_pos hc, joinL_cons, resplit_join B rest [line] line.length,
        joinL_cons, joinL_cons, joinL_nil, List.append_nil]
    · rw [resplit, if_neg hc, resplit_join B rest (cur ++ [line]) (n + line.length),
        joinL_append, joinL_cons, joinL_cons, joinL_nil, List.append_nil,
        List.append_assoc]

theorem joinL_subParts (B : Nat) (txt : Str) : joinL (subParts B txt) = txt := by
  unfold subParts
  rw [resplit_join]
  simpa [joinL] using joinL_splitLinesKeep txt

theorem resplit_ne_nil (B : Nat) : ∀ (lines cur : List Str) (n : Nat),
    lines ≠ [] ∨ cur ≠ [] → resplit B lines cur n ≠ []
  | [], cur, n, h => by
    rcases h with h | h
    · exact absurd rfl h
    · simp [resplit, h]
  | line :: rest, cur, n, _ => by
    by_cases hc : B < n + line.length ∧ cur ≠ []
    · simp [resplit, hc]
    · have := resplit_ne_nil B rest (cur ++ [line]) (n + line.length) (Or.inr (by simp))
      simp [resplit, hc, this]

theorem subParts_ne_nil (B : Nat) (txt : Str) (h : txt ≠ []) : subParts B txt ≠ [] :=
  resplit_ne_nil B _ [] 0 (Or.inl (splitLinesKeep_ne_nil txt h))

theorem oversizeGuard_ne_nil (B : Nat) (c : Chunk) : oversizeGuard B c ≠ [] := by
  unfold oversizeGuard
  by_cases h : c.text.length ≤ B
  · simp [h]
  · have htxt : c.text ≠ [] := by
      intro hx
      rw [hx] at h
      exact h (Nat.zero_le B)
    have := subParts_ne_nil B c.text htxt
    simp [h, this]

theorem flatMap_guard_ne_nil (B : Nat) (cs : List Chunk) (h : cs ≠ []) :
    cs.flatMap (oversizeGuard B) ≠ [] := by
  cases cs with
  | nil => exact absurd rfl h
  | cons c rest =>
    intro hx
    rw [List.flatMap_cons] at hx
    exact oversizeGuard_ne_nil B c (List.append_eq_nil.mp hx).1

-- ════════════════════════════════════════════════════════════════════
-- Claim C10 (oversize re-splitting is a partition with markers)
-- ════════════════════════════════════════════════════════════════════

/-- C10: when the oversize guard splits an over-budget chunk, the
sub-parts' texts concatenate, in order, exactly to the original chunk's
text; every sub-part carries the `"i/n"` `sub_chunk` marker exactly when
more than one sub-part results, and the marker is untouched when there
is a single part. -/
theorem oversizeGuard_partition (B : Nat) (c : Chunk) (h : B < c.text.length) :
    joinL ((oversizeGuard B c).map Chunk.text) = c.text ∧
    (1 < (subParts B c.text).length →
      ∀ i (hi : i < (oversizeGuard B c).length),
        ((oversizeGuard B c).get ⟨i, hi⟩).sub_chunk =
          some (natToStr (i + 1) ++ ['/'] ++ natToStr (subParts B c.text).length)) ∧
    ((subParts B c.text).length ≤ 1 →
      ∀ c' ∈ oversizeGuard B c, c'.sub_chunk = c.sub_chunk) := by
  have hnb : ¬ c.text.length ≤ B := Nat.not_le.mpr h
  refine ⟨?_, ?_, ?_⟩
  · have hmap : (oversizeGuard B c).map Chunk.text = subParts B c.text := by
      simp only [oversizeGuard, hnb, if_false, List.map_map]
      have hcomp : ∀ p : Nat × Str,
          (Chunk.text ∘ fun p : Nat × Str =>
            if 1 < (subParts B c.text).length then
              { c with text := p.2,
                       sub_chunk := some (natToStr (p.1 + 1) ++ ['/'] ++
                         natToStr (subParts B c.text).length) }
            else { c with text := p.2 }) p = Prod.snd p := by
        intro p
        by_cases hx : 1 < (subParts B c.text).length <;> simp [hx]
      rw [List.map_congr_left (fun p _ => hcomp p), List.enum_map_snd]
    rw [hmap, joinL_subParts]
  · intro hlen i hi
    have hi2 : i < (subParts B c.text).enum.length := by
      simpa [oversizeGuard, hnb] using hi
    simp only [oversizeGuard, hnb, if_false, List.get_eq_getElem,
      List.getElem_map, List.getElem_enum, hlen, if_true]
  · intro hlen c' hc'
    simp only [oversizeGuard, hnb, if_false] at hc'
    rcases List.mem_map.mp hc' with ⟨p, _, hp⟩
    have hx : ¬ 1 < (subParts B c.text).length := Nat.not_lt.mpr hlen
    rw [← hp]
    simp [hx]

theorem oversizeGuard_partition_witness :
    5 < ("ab\ncd\nef\n".data : Str).length ∧
      joinL ((oversizeGuard 5 { text := "ab\ncd\nef\n".data }).map Chunk.text) =
        ({ text := "ab\ncd\nef\n".data : Chunk }).text :=
  ⟨by decide, (oversizeGuard_partition 5 { text := "ab\ncd\nef\n".data } (by decide)).1⟩

-- ════════════════════════════════════════════════════════════════════
-- Claim C5 (totality / at least one chunk)
-- ════════════════════════════════════════════════════════════════════

/-- The dispatch condition selecting the Kubernetes-YAML chunker:
`.yaml`/`.yml` extension and a name that neither contains `values` nor
equals `chart.yaml` (mirrors the branch structure of
`classify_and_chunk`). -/
def k8sDispatch (fp : Str) : Bool :=
  let nameL := toLowerStr (pathName fp)
  let ext := toLowerStr (pathSuffix (pathName fp))
  (ext = ".yaml".data || ext = ".yml".data) &&
    !(isSubstrOf "values".data nameL || nameL = "chart.yaml".data)

/-- A concrete YAML oracle agreeing with `yaml.safe_load` on the
documents used by the concrete counterexamples: `"kind: Secret"` parses
to the mapping `{"kind": "Secret"}`, everything else to `None`. -/
def yamlStub : Yaml :=
  { safeLoad := fun s =>
      if s = "kind: Secret".data then
        .ok (.dict (.cons "kind".data (.str "Secret".data) .nil))
      else .ok .pyNone,
    dump := fun k _ => k }

/-- C5, counterexample: a non-empty input consisting of a single
Kubernetes `Secret` manifest yields *zero* chunks. -/
theorem classify_and_chunk_returns_no_chunk :
    classify_and_chunk yamlStub 5000 512 "kind: Secret".data "s.yaml".data = .ok [] := by
  rfl

/-- C5, amended: `classify_and_chunk` is a total function of its inputs
(the only raising path is the Kubernetes-YAML chunker's metadata
extraction), and whenever the input is not dispatched to the
Kubernetes-YAML chunker it succeeds with at least one chunk — for the
k8s-yaml branch an input whose documents are all empty or `Secret`
manifests legitimately yields zero chunks. -/
theorem classify_and_chunk_nonempty (Y : Yaml) (B T : Nat) (text fp : Str)
    (h : k8sDispatch fp = false) :
    ∃ cs, classify_and_chunk Y B T text fp = .ok cs ∧ 1 ≤ cs.length := by
  have key : ∀ l : List Chunk, l ≠ [] → 1 ≤ (l.flatMap (oversizeGuard B)).length := by
    intro l hl
    exact List.length_pos.mpr (flatMap_guard_ne_nil B l hl)
  have hlen : ∀ (t : Str) (l : List Chunk), l ≠ [] →
      (∃ cs, Except.map (fun cs => cs.flatMap (oversizeGuard B))
          (.ok (tagChunks t l) : Except Unit (List Chunk)) = .ok cs ∧ 1 ≤ cs.length) := by
    intro t l hl
    refine ⟨(tagChunks t l).flatMap (oversizeGuard B), rfl, key _ ?_⟩
    simp [tagChunks, hl]
  unfold classify_and_chunk
  by_cases h1 : toLowerStr (pathSuffix (pathName fp)) = ".md".data ∨
      toLowerStr (pathSuffix (pathName fp)) = ".mmd".data
  · simpa [h1] using hlen "markdown".data _ (chunk_markdown_ne_nil text fp)
  · by_cases h2 : toLowerStr (pathSuffix (pathName fp)) = ".go".data
    · simpa [h1, h2] using hlen "go-code".data _ (chunk_go_ne_nil text fp)
    · by_cases h3 : toLowerStr (pathSuffix (pathName fp)) = ".py".data
      · simpa [h1, h2, h3] using hlen "python-code".data _ (chunk_python_ne_nil text fp)
      · by_cases h4 : toLowerStr (pathSuffix (pathName fp)) = ".yaml".data ∨
            toLowerStr (pathSuffix (pathName fp)) = ".yml".data
        · have h5 : isSubstrOf "values".data (toLowerStr (pathName fp)) = true ∨
              toLowerStr (pathName fp) = "chart.yaml".data := by
            simp only [k8sDispatch] at h
            have h' : isSubstrOf "values".data (toLowerStr (pathName fp)) = false →
                toLowerStr (pathName fp) = "chart.yaml".data := by
              rcases h4 with h4' | h4' <;> rw [h4'] at h <;> simpa using h
            cases hb : isSubstrOf "values".data (toLowerStr (pathName fp)) with
            | true => exact Or.inl rfl
            | false => exact Or.inr (h' hb)
          simpa [h1, h2, h3, h4, h5] using
            hlen "helm-values".data _ (chunk_helm_values_ne_nil Y text fp)
        · simpa [h1, h2, h3, h4] using hlen "generic".data _ (chunk_generic_ne_nil T text fp)

theorem classify_and_chunk_nonempty_witness :
    k8sDispatch "f.md".data = false ∧
      ∃ cs, classify_and_chunk yamlStub 5000 512 "hi".data "f.md".data = .ok cs ∧
        1 ≤ cs.length :=
  ⟨by decide, classify_and_chunk_nonempty yamlStub 5000 512 "hi".data "f.md".data (by decide)⟩

-- ════════════════════════════════════════════════════════════════════
-- Claim C8 (markdown: no headings / content before the first heading)
-- ════════════════════════════════════════════════════════════════════

theorem mdGo_no_heading : ∀ (lines : List Str) (h : Str) (cur : List Str),
    (∀ l ∈ lines, isHeadingLine l = false) → mdGo lines h cur = mdFlush h (cur ++ lines)
  | [], h, cur, _ => by simp [mdGo]
  | line :: rest, h, cur, hh => by
    have h1 : isHeadingLine line = false := hh line (by simp)
    have h2 : ∀ l ∈ rest, isHeadingLine l = false := fun l hl => hh l (by simp [hl])
    rw [mdGo, if_neg (by simp [h1]), mdGo_no_heading rest h (cur ++ [line]) h2]
    simp

theorem mdGo_heading_after : ∀ (pre : List Str) (hl : Str) (rest : List Str)
    (h : Str) (cur : List Str),
    (∀ l ∈ pre, isHeadingLine l = false) → isHeadingLine hl = true →
    mdGo (pre ++ hl :: rest) h cur =
      mdFlush h (cur ++ pre) ++ mdGo rest (headingOf hl) []
  | [], hl, rest, h, cur, _, hhl => by
    simp only [List.nil_append, List.append_nil]
    rw [mdGo, if_pos hhl]
  | line :: pre', hl, rest, h, cur, hpre, hhl => by
    have h1 : isHeadingLine line = false := hpre line (by simp)
    have h2 : ∀ l ∈ pre', isHeadingLine l = false := fun l hl' => hpre l (by simp [hl'])
    rw [List.cons_append, mdGo, if_neg (by simp [h1]),
      mdGo_heading_after pre' hl rest h (cur ++ [line]) h2 hhl]
    simp

/-- C8: for a non-empty input, (a) if no line is an H1/H2 heading, the
output is exactly one chunk whose `heading` is the file path and whose
text carries the whole (stripped) file — the raw file text itself when
it is whitespace-only, else the stripped file prefixed by the
synthesized `# <filepath>` header; and (b) content before the first
heading line, when its stripped text is non-empty, becomes the first
chunk, with `heading` defaulting to the file path. -/
theorem chunk_markdown_default_heading (text fp : Str) (hne : text ≠ []) :
    ((∀ l ∈ splitLinesKeep text, isHeadingLine l = false) →
      chunk_markdown text fp =
        [if pyStrip text = [] then { text := text, heading := some fp }
         else mdChunk fp (pyStrip text)]) ∧
    (∀ pre hl rest, splitLinesKeep text = pre ++ hl :: rest →
      (∀ l ∈ pre, isHeadingLine l = false) → isHeadingLine hl = true →
      pyStrip (joinL pre) ≠ [] →
      (chunk_markdown text fp).head? = some (mdChunk fp (pyStrip (joinL pre)))) := by
  constructor
  · intro hh
    unfold chunk_markdown
    rw [mdGo_no_heading (splitLinesKeep text) fp [] hh]
    simp only [List.nil_append]
    unfold mdFlush
    have hlines : splitLinesKeep text ≠ [] := splitLinesKeep_ne_nil text hne
    rw [if_neg hlines, joinL_splitLinesKeep]
    by_cases hb : pyStrip text = [] <;> simp [hb]
  · intro pre hl rest hsplit hpre hhl hbody
    unfold chunk_markdown
    rw [hsplit, mdGo_heading_after pre hl rest fp [] hpre hhl]
    simp only [List.nil_append]
    unfold mdFlush
    have hpren : pre ≠ [] := by
      intro hx
      rw [hx] at hbody
      exact hbody rfl
    rw [if_neg hpren, if_neg hbody]
    simp

theorem chunk_markdown_default_heading_witness :
    ("hello\nworld\n".data : Str) ≠ [] ∧
      chunk_markdown "hello\nworld\n".data "f.md".data =
        [if pyStrip "hello\nworld\n".data = [] then
           { text := "hello\nworld\n".data, heading := some "f.md".data }
         else mdChunk "f.md".data (pyStrip "hello\nworld\n".data)] :=
  ⟨by decide,
   (chunk_markdown_default_heading "hello\nworld\n".data "f.md".data (by decide)).1
     (by decide)⟩

-- ════════════════════════════════════════════════════════════════════
-- Claim C9 (no file-overview chunk when the preamble is empty)
-- ════════════════════════════════════════════════════════════════════

theorem go_symbol_type_ne_overview (dt : Str) :
    (_go_symbol_name dt).2 ≠ "file_overview".data := by
  unfold _go_symbol_name
  rcases h1 : matchGoMethod (pyLstrip (dropGoDocComments dt)) with _ | nm1 <;>
    rcases h2 : matchKwName "func".data (pyLstrip (dropGoDocComments dt)) with _ | nm2 <;>
    rcases h3 : matchKwName "type".data (pyLstrip (dropGoDocComments dt)) with _ | nm3 <;>
    rcases h4 : matchKwName "var".data (pyLstrip (dropGoDocComments dt)) with _ | nm4 <;>
    rcases h5 : matchKwName "const".data (pyLstrip (dropGoDocComments dt)) with _ | nm5 <;>
    simp only [h1, h2, h3, h4, h5]
  all_goals decide

/-- C9: when the text before the first declaration boundary strips to
nothing (in particular when the first boundary is at offset 0),
`chunk_go` emits no file-overview chunk: its output is exactly the
per-declaration chunk list, and no chunk carries
`symbol_type = "file_overview"`. -/
theorem chunk_go_no_overview (text fp : Str) (b : Nat) (bs : List Nat)
    (hb : goBoundaries text = b :: bs) (hpre : pyStrip (text.take b) = []) :
    chunk_go text fp = goDeclChunks text (_extract_go_package text) (b :: bs) ∧
    ∀ c ∈ chunk_go text fp, c.symbol_type ≠ some "file_overview".data := by
  have heq : chunk_go text fp = goDeclChunks text (_extract_go_package text) (b :: bs) := by
    unfold chunk_go
    rw [hb]
    simp [hpre]
  refine ⟨heq, ?_⟩
  intro c hc
  rw [heq] at hc
  unfold goDeclChunks at hc
  rcases List.mem_map.mp hc with ⟨p, _, hp⟩
  rw [← hp]
  simp only [Option.some.injEq, ne_eq]
  intro hx
  exact go_symbol_type_ne_overview (pyRstrip p.2) hx

theorem chunk_go_no_overview_witness :
    goBoundaries "func A() {}\n".data = [0] ∧
      chunk_go "func A() {}\n".data "h.go".data =
        goDeclChunks "func A() {}\n".data
          (_extract_go_package "func A() {}\n".data) [0] :=
  ⟨by decide,
   (chunk_go_no_overview "func A() {}\n".data "h.go".data 0 [] (by decide) (by decide)).1⟩

-- ════════════════════════════════════════════════════════════════════
-- Claim C3 (declaration keywords inside strings never create boundaries)
-- ════════════════════════════════════════════════════════════════════

/-- The declaration-isolation input: a raw back-quoted string holding
`func fake() {}` at column 0, and a function whose body holds the
double-quoted string literal `"func fake2() {}"`. -/
def goIsolationInput : Str :=
  "package p\n\nvar S = `\nfunc fake() \x7b\x7d\n`\n\nfunc Real() \x7b\n\ts := \"func fake2() \x7b\x7d\"\n\x7d\n".data

/-- An input refuting the detection half of the isolation claim: the
`//` inside the double-quoted URL literal is taken as a line-comment
start (the scanner's comment check precedes its in-string check), the
closing quote is swallowed by the comment, and the scanner never
leaves string context, so the genuine top-level `func Real` below is
never detected. -/
def goUrlInput : Str :=
  "package p\n\nvar URL = \"http://x\"\n\nfunc Real() \x7b\x7d\n".data

set_option maxRecDepth 20000 in
/-- C3, counterexample: on `goUrlInput` only the `var` declaration at
offset 11 is detected — the genuine top-level `func Real` (outside any
real string or comment) creates no boundary and gets no chunk, because
the `//` inside the `"http://x"` literal opens a line comment that
swallows the closing quote and leaves the scanner in string context.
This refutes the claim that every genuine top-level declaration
outside string/comment contexts is still detected. -/
theorem chunk_go_detection_missed :
    goBoundaries goUrlInput = [11] ∧
    (chunk_go goUrlInput "f.go".data).map Chunk.symbol_type =
      [some "file_overview".data, some "var".data] := by
  constructor
  · decide
  · decide

set_option maxRecDepth 20000 in
/-- C3 (amended): on the spec's declaration-isolation input the
scanner records exactly the two genuine top-level declarations
(`var S` at offset 11 and `func Real` at offset 39) — the `func fake…`
texts inside the raw and interpreted string literals create no
boundary — and `chunk_go` yields exactly one `function` chunk
(`Real`), one `var` chunk (`S`) and the file-overview chunk listing
both; the general detection guarantee fails (see the
counterexample). -/
theorem chunk_go_string_isolation :
    goBoundaries goIsolationInput = [11, 39] ∧
    chunk_go goIsolationInput "f.go".data =
      [{ text := "package p\n\n// Exported symbols: var S, function Real".data,
         language := some "go".data, package := some "p".data,
         symbol := some "f.go".data, symbol_type := some "file_overview".data,
         imports := some [] },
       { text := "var S = `\nfunc fake() \x7b\x7d\n`".data, language := some "go".data,
         package := some "p".data, symbol := some "S".data,
         symbol_type := some "var".data },
       { text := "func Real() \x7b\n\ts := \"func fake2() \x7b\x7d\"\n\x7d".data,
         language := some "go".data, package := some "p".data,
         symbol := some "Real".data, symbol_type := some "function".data }] := by
  constructor
  · decide
  · decide

-- ════════════════════════════════════════════════════════════════════
-- Claim C1 (character budget, modulo single over-long lines)
-- ════════════════════════════════════════════════════════════════════

/-- `s` is a single line: splitting it again yields it unchanged. -/
def IsLine (s : Str) : Prop := splitLinesKeep s = [s]

theorem slGo_noBreak : ∀ (s cur : Str), (∀ c ∈ s, isBreak c = false) →
    cur ≠ [] ∨ s ≠ [] → slGo cur s = [cur.reverse ++ s]
  | [], cur, _, h => by
    rcases h with h | h
    · simp [slGo, h]
    · exact absurd rfl h
  | [c], cur, _, _ => by simp [slGo]
  | c :: c2 :: rest, cur, hnb, _ => by
    have hc : isBreak c = false := hnb c (by simp)
    have hcr : ¬ c = '\r' := by
      intro hx
      subst hx
      exact absurd hc (by decide)
    rw [slGo, if_neg hcr, if_neg (by simp [hc]),
      slGo_noBreak (c2 :: rest) (c :: cur) (fun x hx => hnb x (by simp [hx]))
        (Or.inr (by simp))]
    simp

theorem splitLinesKeep_of_noBreak (s : Str) (h : ∀ c ∈ s, isBreak c = false)
    (hne : s ≠ []) : splitLinesKeep s = [s] := by
  simpa [splitLinesKeep] using slGo_noBreak s [] h (Or.inr hne)

theorem slGo_body_single : ∀ (b : Str) (c : Char) (cur : Str),
    (∀ x ∈ b, isBreak x = false) → (∀ x ∈ cur, isBreak x = false) →
    slGo cur (b ++ [c]) = [cur.reverse ++ (b ++ [c])]
  | [], c, cur, _, _ => by simp [slGo]
  | x :: b', c, cur, hb, hcur => by
    have hx : isBreak x = false := hb x (by simp)
    have hxr : ¬ x = '\r' := by
      intro hxx
      subst hxx
      exact absurd hx (by decide)
    cases hsh : b' ++ [c] with
    | nil => exact absurd hsh (by simp)
    | cons c2 rest =>
      rw [List.cons_append, hsh, slGo, if_neg hxr, if_neg (by simp [hx]), ← hsh,
        slGo_body_single b' c (x :: cur) (fun y hy => hb y (by simp [hy]))
          (fun y hy => by
            rcases List.mem_cons.mp hy with hy | hy
            · subst hy; exact hx
            · exact hcur y hy)]
      simp

theorem slGo_crlf : ∀ (b cur : Str), (∀ x ∈ b, isBreak x = false) →
    slGo cur (b ++ ['\r', '\n']) = [cur.reverse ++ (b ++ ['\r', '\n'])]
  | [], cur, _ => by simp [slGo]
  | x :: b', cur, hb => by
    have hx : isBreak x = false := hb x (by simp)
    have hxr : ¬ x = '\r' := by
      intro hxx
      subst hxx
      exact absurd hx (by decide)
    cases hsh : b' ++ ['\r', '\n'] with
    | nil => exact absurd hsh (by simp)
    | cons c2 rest =>
      rw [List.cons_append, hsh, slGo, if_neg hxr, if_neg (by simp [hx]), ← hsh,
        slGo_crlf b' (x :: cur) (fun y hy => hb y (by simp [hy]))]
      simp

theorem mem_slGo_isLine : ∀ (l cur : Str), (∀ x ∈ cur, isBreak x = false) →
    ∀ s ∈ slGo cur l, IsLine s
  | [], cur, hcur => by
    intro s hs
    by_cases hc : cur = []
    · simp [slGo, hc] at hs
    · simp [slGo, hc] at hs
      subst hs
      exact splitLinesKeep_of_noBreak cur.reverse
        (fun x hx => hcur x (List.mem_reverse.mp hx)) (by simp [hc])
  | [c], cur, hcur => by
    intro s hs
    simp [slGo] at hs
    subst hs
    show splitLinesKeep (cur.reverse ++ [c]) = _
    rw [splitLinesKeep, slGo_body_single cur.reverse c []
      (fun x hx => hcur x (List.mem_reverse.mp hx)) (by simp)]
    simp
  | c :: c2 :: rest, cur, hcur => by
    intro s hs
    have hrev : ∀ x ∈ cur.reverse, isBreak x = false :=
      fun x hx => hcur x (List.mem_reverse.mp hx)
    by_cases h1 : c = '\r'
    · by_cases h2 : c2 = '\n'
      · subst h1; subst h2
        rw [slGo] at hs
        simp only [if_pos rfl] at hs
        rcases List.mem_cons.mp hs with hs | hs
        · subst hs
          show splitLinesKeep (cur.reverse ++ ['\r', '\n']) = _
          rw [splitLinesKeep, slGo_crlf cur.reverse [] hrev]
          simp
        · exact mem_slGo_isLine rest [] (by simp) s hs
      · subst h1
        rw [slGo, if_pos rfl, if_neg h2] at hs
        rcases List.mem_cons.mp hs with hs | hs
        · subst hs
          show splitLinesKeep (cur.reverse ++ ['\r']) = _
          rw [splitLinesKeep, slGo_body_single cur.reverse '\r' [] hrev (by simp)]
          simp
        · exact mem_slGo_isLine (c2 :: rest) [] (by simp) s hs
    · by_cases h3 : isBreak c = true
      · rw [slGo, if_neg h1, if_pos h3] at hs
        rcases List.mem_cons.mp hs with hs | hs
        · subst hs
          show splitLinesKeep (cur.reverse ++ [c]) = _
          rw [splitLinesKeep, slGo_body_single cur.reverse c [] hrev (by simp)]
          simp
        · exact mem_slGo_isLine (c2 :: rest) [] (by simp) s hs
      · rw [slGo, if_neg h1, if_neg h3] at hs
        exact mem_slGo_isLine (c2 :: rest) (c :: cur)
          (fun x hx => by
            rcases List.mem_cons.mp hx with hx | hx
            · subst hx; exact Bool.not_eq_true _ ▸ (by simpa using h3)
            · exact hcur x hx) s hs

theorem mem_splitLinesKeep_isLine (l : Str) : ∀ s ∈ splitLinesKeep l, IsLine s :=
  mem_slGo_isLine l [] (by simp)

theorem resplit_parts (B : Nat) : ∀ (lines cur : List Str) (n : Nat),
    (∀ s ∈ lines, IsLine s) → (∀ s ∈ cur, IsLine s) →
    n = (joinL cur).length → (2 ≤ cur.length → n ≤ B) →
    ∀ part ∈ resplit B lines cur n, part.length ≤ B ∨ IsLine part
  | [], cur, n, _, hcur, hn, hb => by
    intro part hp
    by_cases hc : cur = []
    · simp [resplit, hc] at hp
    · simp [resplit, hc] at hp
      subst hp
      cases cur with
      | nil => exact absurd rfl hc
      | cons x xs =>
        cases xs with
        | nil =>
          right
          have : joinL [x] = x := by simp [joinL_cons, joinL_nil]
          rw [this]
          exact hcur x (by simp)
        | cons y ys =>
          left
          rw [← hn]
          exact hb (by simp [Nat.succ_le_succ, Nat.le_add_left])
  | line :: rest, cur, n, hlines, hcur, hn, hb => by
    intro part hp
    have hline : IsLine line := hlines line (by simp)
    have hrest : ∀ s ∈ rest, IsLine s := fun s hs => hlines s (by simp [hs])
    by_cases hc : B < n + line.length ∧ cur ≠ []
    · rw [resplit, if_pos hc] at hp
      rcases List.mem_cons.mp hp with hp | hp
      · subst hp
        cases cur with
        | nil => exact absurd rfl hc.2
        | cons x xs =>
          cases xs with
          | nil =>
            right
            have : joinL [x] = x := by simp [joinL_cons, joinL_nil]
            rw [this]
            exact hcur x (by simp)
          | cons y ys =>
            left
            rw [← hn]
            exact hb (by simp [Nat.succ_le_succ, Nat.le_add_left])
      · exact resplit_parts B rest [line] line.length hrest
          (fun s hs => by simp at hs; subst hs; exact hline)
          (by simp [joinL_cons, joinL_nil]) (by intro h2; simp at h2) part hp
    · rw [resplit, if_neg hc] at hp
      refine resplit_parts B rest (cur ++ [line]) (n + line.length) hrest
        (fun s hs => by
          rcases List.mem_append.mp hs with hs | hs
          · exact hcur s hs
          · simp at hs; subst hs; exact hline)
        (by rw [hn, joinL_append]; simp [joinL_cons, joinL_nil]) ?_ part hp
      intro h2
      by_cases hcn : cur = []
      · subst hcn
        simp at h2
      · have := Nat.not_lt.mp (fun hx => hc ⟨hx, hcn⟩)
        exact this

theorem subParts_within (B : Nat) (txt : Str) :
    ∀ part ∈ subParts B txt, part.length ≤ B ∨ IsLine part :=
  resplit_parts B (splitLinesKeep txt) [] 0 (mem_splitLinesKeep_isLine txt)
    (by simp) (by simp [joinL_nil]) (by intro h; simp at h)

theorem mem_enum_snd_mem {α : Type} {l : List α} {p : Nat × α} (h : p ∈ l.enum) :
    p.2 ∈ l := by
  rcases List.mem_iff_getElem.mp h with ⟨i, hi, hg⟩
  have hi2 : i < l.length := by simpa using hi
  have he := List.getElem_enum l i hi
  rw [he] at hg
  rw [← hg]
  simpa using List.getElem_mem hi2

theorem oversizeGuard_within (B : Nat) (c0 c : Chunk) (h : c ∈ oversizeGuard B c0) :
    c.text.length ≤ B ∨ IsLine c.text := by
  unfold oversizeGuard at h
  by_cases hle : c0.text.length ≤ B
  · rw [if_pos hle] at h
    simp at h
    subst h
    exact Or.inl hle
  · rw [if_neg hle] at h
    rcases List.mem_map.mp h with ⟨p, hp, hpc⟩
    have hmem : p.2 ∈ subParts B c0.text := mem_enum_snd_mem hp
    have := subParts_within B c0.text p.2 hmem
    have htext : c.text = p.2 := by
      rw [← hpc]
      by_cases hx : 1 < (subParts B c0.text).length <;> simp [hx]
    rw [htext]
    exact this

theorem mem_of_map_flatMap {g : Chunk → List Chunk} {e : Except Unit (List Chunk)}
    {cs : List Chunk} {c : Chunk}
    (h : Except.map (fun l => l.flatMap g) e = .ok cs) (hc : c ∈ cs) :
    ∃ c0, c ∈ g c0 := by
  cases e with
  | error err => simp [Except.map] at h
  | ok l =>
    simp [Except.map] at h
    subst h
    rcases List.mem_flatMap.mp hc with ⟨c0, _, hmem⟩
    exact ⟨c0, hmem⟩

/-- C1, counterexample: with budget `B = 5`, the markdown input
`"aaaaaa"` (a single six-character line) produces a final chunk of six
characters — the line accumulator never splits inside a line, so a
single line longer than the budget survives intact. -/
theorem classify_and_chunk_budget_violated :
    ((classify_and_chunk yamlStub 5 512 "aaaaaa".data "f.md".data).toOption.getD
      []).any (fun c => decide (5 < c.text.length)) = true := by
  rfl

/-- C1, amended: every chunk returned by `classify_and_chunk` either
respects the configured character budget `B` or consists of one single
line of its source chunk (a line longer than `B` is emitted intact,
since the re-split only accumulates whole lines). -/
theorem classify_and_chunk_within_budget_or_line (Y : Yaml) (B T : Nat)
    (text fp : Str) (cs : List Chunk) (c : Chunk)
    (hok : classify_and_chunk Y B T text fp = .ok cs) (hc : c ∈ cs) :
    c.text.length ≤ B ∨ splitLinesKeep c.text = [c.text] := by
  unfold classify_and_chunk at hok
  rcases mem_of_map_flatMap hok hc with ⟨c0, hmem⟩
  exact oversizeGuard_within B c0 c hmem

/-- The chunks produced for the C1 witness input (budget 5, markdown
file `"aaaaaa"`). -/
def aaChunks : List Chunk :=
  [{ chunk_type := "markdown".data, text := "# f.md\n".data,
     heading := some "f.md".data, sub_chunk := some "1/3".data },
   { chunk_type := "markdown".data, text := "\n".data,
     heading := some "f.md".data, sub_chunk := some "2/3".data },
   { chunk_type := "markdown".data, text := "aaaaaa".data,
     heading := some "f.md".data, sub_chunk := some "3/3".data }]

theorem classify_and_chunk_within_budget_or_line_witness :
    (aaChunks.get ⟨0, by decide⟩).text.length ≤ 5 ∨
      splitLinesKeep (aaChunks.get ⟨0, by decide⟩).text =
        [(aaChunks.get ⟨0, by decide⟩).text] :=
  classify_and_chunk_within_budget_or_line yamlStub 5 512 "aaaaaa".data "f.md".data
    aaChunks (aaChunks.get ⟨0, by decide⟩) (by rfl) (by decide)

-- ════════════════════════════════════════════════════════════════════
-- Claim C4 (reconstruction up to whitespace)
-- ════════════════════════════════════════════════════════════════════

/-- The body of a markdown chunk with its synthesized `# <heading>`
prefix stripped (used to state the reconstruction claim for the
markdown chunker). -/
def mdBody (c : Chunk) : Str :=
  match c.heading with
  | some h =>
    let pre := "# ".data ++ h ++ "\n\n".data
    if pre.isPrefixOf c.text then c.text.drop pre.length else c.text
  | none => c.text

/-- C4, counterexample: for the markdown input `"## A\nb\n"` the chunk
bodies (prefixes stripped) reconstruct only `"b"` — the original `## A`
heading line is consumed into the `heading` metadata and normalised to
`# A`, so reconstruction loses non-whitespace characters. -/
theorem chunk_markdown_not_reconstructing :
    filterNonWs (joinL ((chunk_markdown "## A\nb\n".data "f.md".data).map mdBody)) ≠
      filterNonWs "## A\nb\n".data := by
  decide

-- ── Generic string lemmas for the Go walk-back analysis ─────────────

theorem takeWhile_eq_take (p : Char → Bool) : ∀ (S : Str) (m : Nat),
    (∀ x, x < m → x < S.length → p (S.getD x ' ') = true) →
    (m < S.length → p (S.getD m ' ') = false) → m ≤ S.length →
    S.takeWhile p = S.take m
  | [], m, _, _, hm => by
    simp at hm
    simp [hm]
  | c :: S', 0, _, h2, _ => by
    have := h2 (by simp)
    simp at this
    simp [List.takeWhile_cons, this]
  | c :: S', m + 1, h1, h2, hm => by
    have hc : p c = true := by simpa using h1 0 (Nat.succ_pos m) (by simp)
    rw [List.takeWhile_cons, if_pos hc, List.take_succ_cons]
    congr 1
    exact takeWhile_eq_take p S' m
      (fun x hx hxl => by simpa using h1 (x + 1) (by omega) (by simpa using hxl))
      (fun hml => by simpa using h2 (by simpa using hml))
      (by simpa using hm)

theorem pyRstrip_append_space (y : Str) (c : Char) (hc : isSpace c = true) :
    pyRstrip (y ++ [c]) = pyRstrip y := by
  unfold pyRstrip
  rw [List.reverse_append]
  simp [List.dropWhile_cons, hc]

theorem pyStrip_append_space (x : Str) (c : Char) (hc : isSpace c = true) :
    pyStrip (x ++ [c]) = pyStrip x := by
  unfold pyStrip pyLstrip
  rw [List.dropWhile_append]
  by_cases he : (x.dropWhile isSpace).isEmpty
  · have hx : x.dropWhile isSpace = [] := List.isEmpty_iff.mp he
    rw [if_pos he, hx]
    simp [List.dropWhile_cons, hc]
  · simp only [he, if_false]
    exact pyRstrip_append_space _ c hc

theorem pyStrip_head (c : Char) (z : Str) (hc : isSpace c = false) :
    ∃ t, pyStrip (c :: z) = c :: t := by
  have h1 : pyLstrip (c :: z) = c :: z := by
    unfold pyLstrip
    rw [List.dropWhile_cons, if_neg (by simp [hc])]
  unfold pyStrip
  rw [h1]
  unfold pyRstrip
  rw [List.reverse_cons, List.dropWhile_append]
  by_cases he : (z.reverse.dropWhile isSpace).isEmpty
  · refine ⟨[], ?_⟩
    rw [if_pos he]
    simp [List.dropWhile_cons, hc]
  · refine ⟨(z.reverse.dropWhile isSpace).reverse, ?_⟩
    rw [if_neg he]
    simp

-- ── `rfindNlBefore` characterisation ────────────────────────────────

theorem rfindNl_lt (text : Str) : ∀ j p, rfindNlBefore text j = some p → p < j
  | 0, p, h => by simp [rfindNlBefore] at h
  | j + 1, p, h => by
    rw [rfindNlBefore] at h
    by_cases hj : text.getD j ' ' = '\n'
    · rw [if_pos hj] at h
      cases h
      omega
    · rw [if_neg hj] at h
      exact Nat.lt_succ_of_lt (rfindNl_lt text j p h)

theorem rfindNl_nl (text : Str) : ∀ j p, rfindNlBefore text j = some p →
    text.getD p ' ' = '\n'
  | 0, p, h => by simp [rfindNlBefore] at h
  | j + 1, p, h => by
    rw [rfindNlBefore] at h
    by_cases hj : text.getD j ' ' = '\n'
    · rw [if_pos hj] at h
      cases h
      exact hj
    · rw [if_neg hj] at h
      exact rfindNl_nl text j p h

theorem rfindNl_max (text : Str) : ∀ j p, rfindNlBefore text j = some p →
    ∀ m, p < m → m < j → text.getD m ' ' ≠ '\n'
  | 0, p, h => by simp [rfindNlBefore] at h
  | j + 1, p, h => by
    rw [rfindNlBefore] at h
    by_cases hj : text.getD j ' ' = '\n'
    · rw [if_pos hj] at h
      cases h
      intro m h1 h2
      omega
    · rw [if_neg hj] at h
      intro m h1 h2
      rcases Nat.lt_succ_iff_lt_or_eq.mp h2 with h2 | h2
      · exact rfindNl_max text j p h m h1 h2
      · subst h2
        exact hj

theorem rfindNl_none (text : Str) : ∀ j, rfindNlBefore text j = none →
    ∀ m, m < j → text.getD m ' ' ≠ '\n'
  | 0, _, m, hm => by omega
  | j + 1, h, m, hm => by
    rw [rfindNlBefore] at h
    by_cases hj : text.getD j ' ' = '\n'
    · rw [if_pos hj] at h
      cases h
    · rw [if_neg hj] at h
      rcases Nat.lt_succ_iff_lt_or_eq.mp hm with hm | hm
      · exact rfindNl_none text j h m hm
      · subst hm
        exact hj

theorem rfindNl_ge (text : Str) : ∀ j k, text.getD k ' ' = '\n' → k < j →
    ∃ p, rfindNlBefore text j = some p ∧ k ≤ p
  | 0, k, _, hk => by omega
  | j + 1, k, hknl, hk => by
    rw [rfindNlBefore]
    by_cases hj : text.getD j ' ' = '\n'
    · exact ⟨j, by rw [if_pos hj], by omega⟩
    · have hkj : k ≠ j := by
        intro hx
        subst hx
        exact hj hknl
      have hk' : k < j := by omega
      rcases rfindNl_ge text j k hknl hk' with ⟨p, hp, hkp⟩
      exact ⟨p, by rw [if_neg hj]; exact hp, hkp⟩

-- ── Lines and the walk-back ─────────────────────────────────────────

/-- `p` is the first position of a line (offset 0 or just after a
newline). -/
def LineStart (text : Str) (p : Nat) : Prop :=
  p = 0 ∨ (1 ≤ p ∧ text.getD (p - 1) ' ' = '\n')

/-- The stripped content of the line beginning at offset `q`. -/
def lineStripAt (text : Str) (q : Nat) : Str :=
  pyStrip ((text.drop q).takeWhile (fun c => c ≠ '\n'))

theorem getD_drop (text : Str) (q x : Nat) :
    (text.drop q).getD x ' ' = text.getD (q + x) ' ' := by
  simp [List.getD, List.getElem?_drop]

/-- The slice examined by the walk-back loop strips to the content of
the line starting at `q`, provided the slice contains no interior
newline and ends at (or just before) one. -/
theorem slice_strip (text : Str) (q j : Nat) (hqj : q ≤ j) (hjl : j < text.length)
    (hno : ∀ m, q ≤ m → m < j → text.getD m ' ' ≠ '\n')
    (hend : text.getD j ' ' = '\n' ∨ text.getD (j + 1) ' ' = '\n') :
    pyStrip ((text.take (j + 1)).drop q) = lineStripAt text q := by
  have hslice : (text.take (j + 1)).drop q = (text.drop q).take (j + 1 - q) := by
    rw [List.drop_take]
  set S := text.drop q with hS
  have hSlen : S.length = text.length - q := by simp [hS]
  have hgd : ∀ x, S.getD x ' ' = text.getD (q + x) ' ' := fun x => getD_drop text q x
  rw [hslice]
  unfold lineStripAt
  rw [← hS]
  set k := j + 1 - q with hk
  have hk1 : 1 ≤ k := by omega
  rcases hend with hendl | hendr
  · -- the slice ends with the newline at `j`
    have hm : S.takeWhile (fun c => c ≠ '\n') = S.take (k - 1) := by
      apply takeWhile_eq_take
      · intro x hx _
        have : text.getD (q + x) ' ' ≠ '\n' := hno (q + x) (by omega) (by omega)
        show decide (S.getD x ' ' ≠ '\n') = true
        rw [hgd x]
        exact decide_eq_true this
      · intro _
        have : S.getD (k - 1) ' ' = '\n' := by
          rw [hgd]
          have : q + (k - 1) = j := by omega
          rw [this]
          exact hendl
        show decide (S.getD (k - 1) ' ' ≠ '\n') = false
        exact decide_eq_false (not_not_intro this)
      · omega
    have htake : S.take k = S.take (k - 1) ++ ['\n'] := by
      have hkk : k = (k - 1) + 1 := by omega
      rw [hkk, List.take_succ]
      congr 1
      have hlt : k - 1 < S.length := by omega
      rw [List.getElem?_eq_getElem hlt]
      have : S.getD (k - 1) ' ' = '\n' := by
        rw [hgd]
        have : q + (k - 1) = j := by omega
        rw [this]
        exact hendl
      simp [List.getD] at this
      rw [List.getElem?_eq_getElem hlt] at this
      simp at this
      simp [this]
    rw [hm, htake, pyStrip_append_space _ '\n' (by decide)]
  · -- the newline is just after the slice (or the slice reaches EOF)
    have hjq : text.getD j ' ' ≠ '\n' ∨ text.getD j ' ' = '\n' := by tauto
    by_cases hjn : text.getD j ' ' = '\n'
    · -- same as the first case
      have hm : S.takeWhile (fun c => c ≠ '\n') = S.take (k - 1) := by
        apply takeWhile_eq_take
        · intro x hx _
          have : text.getD (q + x) ' ' ≠ '\n' := hno (q + x) (by omega) (by omega)
          show decide (S.getD x ' ' ≠ '\n') = true
          rw [hgd x]
          exact decide_eq_true this
        · intro _
          have : S.getD (k - 1) ' ' = '\n' := by
            rw [hgd]
            have : q + (k - 1) = j := by omega
            rw [this]
            exact hjn
          show decide (S.getD (k - 1) ' ' ≠ '\n') = false
          exact decide_eq_false (not_not_intro this)
        · omega
      have htake : S.take k = S.take (k - 1) ++ ['\n'] := by
        have hkk : k = (k - 1) + 1 := by omega
        rw [hkk, List.take_succ]
        congr 1
        have hlt : k - 1 < S.length := by omega
        have : S.getD (k - 1) ' ' = '\n' := by
          rw [hgd]
          have : q + (k - 1) = j := by omega
          rw [this]
          exact hjn
        simp [List.getD] at this
        rw [List.getElem?_eq_getElem hlt] at this
        simp at this
        rw [List.getElem?_eq_getElem hlt]
        simp [this]
      rw [hm, htake, pyStrip_append_space _ '\n' (by decide)]
    · -- no newline anywhere in the slice; it is the whole line
      have hm : S.takeWhile (fun c => c ≠ '\n') = S.take k := by
        apply takeWhile_eq_take
        · intro x hx _
          have hqx : q + x ≤ j := by omega
          rcases Nat.lt_or_ge (q + x) j with hlt | hge
          · have : text.getD (q + x) ' ' ≠ '\n' := hno (q + x) (by omega) hlt
            show decide (S.getD x ' ' ≠ '\n') = true
            rw [hgd x]
            exact decide_eq_true this
          · have hxj : q + x = j := by omega
            have : text.getD (q + x) ' ' ≠ '\n' := by rw [hxj]; exact hjn
            show decide (S.getD x ' ' ≠ '\n') = true
            rw [hgd x]
            exact decide_eq_true this
        · intro hkS
          have : S.getD k ' ' = '\n' := by
            rw [hgd]
            have : q + k = j + 1 := by omega
            rw [this]
            exact hendr
          show decide (S.getD k ' ' ≠ '\n') = false
          exact decide_eq_false (not_not_intro this)
        · omega
      rw [hm]

/-- A line that starts with a non-space, non-slash, non-newline
character strips to a non-empty, non-`//` line. -/
theorem lineStrip_of_head (text : Str) (q : Nat) (c : Char) (t : Str)
    (hd : text.drop q = c :: t) (hc : isSpace c = false) (hnl : c ≠ '\n')
    (hcs : c ≠ '/') :
    lineStripAt text q ≠ [] ∧
      "//".data.isPrefixOf (lineStripAt text q) = false := by
  unfold lineStripAt
  rw [hd, List.takeWhile_cons, if_pos (by simpa using hnl)]
  obtain ⟨t', ht'⟩ := pyStrip_head c _ hc
  rw [ht']
  refine ⟨by simp, ?_⟩
  show ('/' :: '/' :: []).isPrefixOf (c :: t') = false
  simp only [List.isPrefixOf, Bool.and_eq_false_iff]
  left
  simpa using fun h => hcs h.symm

/-- A detected Go keyword line strips to a non-empty, non-comment line. -/
theorem goKw_line (text : Str) (q : Nat) (h : goKwAt (text.drop q) = true) :
    lineStripAt text q ≠ [] ∧
      "//".data.isPrefixOf (lineStripAt text q) = false := by
  unfold goKwAt at h
  simp only [Bool.or_eq_true] at h
  rcases h with ((h | h) | h) | h <;>
    obtain ⟨t, ht⟩ := List.isPrefixOf_iff_prefix.mp h
  · exact lineStrip_of_head text q 'f' _ (by rw [← ht]; rfl) (by decide) (by decide) (by decide)
  · exact lineStrip_of_head text q 't' _ (by rw [← ht]; rfl) (by decide) (by decide) (by decide)
  · exact lineStrip_of_head text q 'v' _ (by rw [← ht]; rfl) (by decide) (by decide) (by decide)
  · exact lineStrip_of_head text q 'c' _ (by rw [← ht]; rfl) (by decide) (by decide) (by decide)

/-- The walk-back never moves the declaration start below its argument
bound: the result is at most `ds`. -/
theorem walkBackGo_le (text : Str) : ∀ fuel j ds, j < ds →
    walkBackGo text fuel j ds ≤ ds
  | 0, _, ds, _ => Nat.le_refl ds
  | fuel + 1, j, ds, hj => by
    simp only [walkBackGo]
    rcases hpn : rfindNlBefore text j with _ | P
    · by_cases hcm : "//".data.isPrefixOf (pyStrip (text.take (j + 1))) = true
      · rw [if_pos hcm]
        exact Nat.zero_le ds
      · rw [if_neg hcm]
    · have hPj : P < j := rfindNl_lt text j P hpn
      rcases P with _ | p
      · by_cases hcm : "//".data.isPrefixOf
            (pyStrip ((text.take (j + 1)).drop 1)) = true
        · rw [if_pos hcm]
          show 1 ≤ ds
          omega
        · rw [if_neg hcm]
      · by_cases hcm : "//".data.isPrefixOf
            (pyStrip ((text.take (j + 1)).drop (p + 2))) = true
        · rw [if_pos hcm]
          show walkBackGo text fuel p (p + 2) ≤ ds
          have h1 := walkBackGo_le text fuel p (p + 2) (by omega)
          omega
        · rw [if_neg hcm]

/-- `decl_start` never exceeds the detection position. -/
theorem walkBack_le (text : Str) (i : Nat) : walkBack text i ≤ i := by
  unfold walkBack
  by_cases h : i = 0
  · rw [if_pos h]
    omega
  · rw [if_neg h]
    exact walkBackGo_le text i (i - 1) i (by omega)

/-- The walk-back loop never climbs past a line start `q` whose line
strips to something non-empty that is not a `//` comment.  `j` sits at
(or just before) the newline ending the line above the current
declaration start `ds`. -/
theorem walkBackGo_gt (text : Str) (q : Nat) (hqLS : LineStart text q)
    (hne : lineStripAt text q ≠ [])
    (hnc : "//".data.isPrefixOf (lineStripAt text q) = false) :
    ∀ fuel j ds, q ≤ j → q < ds → j < text.length →
      (text.getD j ' ' = '\n' ∨ text.getD (j + 1) ' ' = '\n') →
      q < walkBackGo text fuel j ds
  | 0, _, _, _, hds, _, _ => hds
  | fuel + 1, j, ds, hqj, hds, hjl, hend => by
    simp only [walkBackGo]
    rcases hpn : rfindNlBefore text j with _ | P
    · by_cases hcm : "//".data.isPrefixOf (pyStrip (text.take (j + 1))) = true
      · rw [if_pos hcm]
        exfalso
        rcases hqLS with h0 | ⟨h1, h2⟩
        · subst h0
          have hs : pyStrip ((text.take (j + 1)).drop 0) = lineStripAt text 0 :=
            slice_strip text 0 j (by omega) hjl
              (fun m _ hm => rfindNl_none text j hpn m hm) hend
          rw [List.drop_zero] at hs
          rw [hs] at hcm
          simp [hnc] at hcm
        · exact rfindNl_none text j hpn (q - 1) (by omega) h2
      · rw [if_neg hcm]
        exact hds
    · have hPj : P < j := rfindNl_lt text j P hpn
      have hPnl : text.getD P ' ' = '\n' := rfindNl_nl text j P hpn
      have hmax := rfindNl_max text j P hpn
      rcases P with _ | p
      · by_cases hcm : "//".data.isPrefixOf
            (pyStrip ((text.take (j + 1)).drop 1)) = true
        · rw [if_pos hcm]
          show q < 1
          by_contra hq1
          rcases hqLS with h0 | ⟨h1, h2⟩
          · omega
          · rcases Nat.lt_or_ge 1 q with hgt | hle
            · exact hmax (q - 1) (by omega) (by omega) h2
            · have hq : q = 1 := by omega
              subst hq
              have hs : pyStrip ((text.take (j + 1)).drop 1) =
                  lineStripAt text 1 :=
                slice_strip text 1 j (by omega) hjl
                  (fun m hm1 hm2 => hmax m (by omega) hm2) hend
              rw [hs] at hcm
              simp [hnc] at hcm
        · rw [if_neg hcm]
          exact hds
      · by_cases hcm : "//".data.isPrefixOf
            (pyStrip ((text.take (j + 1)).drop (p + 2))) = true
        · rw [if_pos hcm]
          show q < walkBackGo text fuel p (p + 2)
          rcases Nat.lt_or_ge q (p + 1) with hql | hqg
          · exact walkBackGo_gt text q hqLS hne hnc fuel p (p + 2)
              (by omega) (by omega) (by omega) (Or.inr hPnl)
          · exfalso
            rcases Nat.lt_or_ge (p + 2) q with hgt | hle
            · rcases hqLS with h0 | ⟨h1, h2⟩
              · omega
              · exact hmax (q - 1) (by omega) (by omega) h2
            · rcases Nat.lt_or_ge q (p + 2) with hq1 | hq2
              · have hq : q = p + 1 := by omega
                have hqlen : q < text.length := by omega
                have hnlq : text.getD q ' ' = '\n' := by rw [hq]; exact hPnl
                have hdrop : text.drop q = text.getD q ' ' :: text.drop (q + 1) := by
                  rw [List.getD_eq_getElem text ' ' hqlen]
                  exact List.drop_eq_getElem_cons hqlen
                have hempty : lineStripAt text q = [] := by
                  unfold lineStripAt
                  rw [hdrop, hnlq, List.takeWhile_cons, if_neg (by simp)]
                  rfl
                exact hne hempty
              · have hq : q = p + 2 := by omega
                subst hq
                have hs : pyStrip ((text.take (j + 1)).drop (p + 2)) =
                    lineStripAt text (p + 2) :=
                  slice_strip text (p + 2) j (by omega) hjl
                    (fun m hm1 hm2 => hmax m (by omega) hm2) hend
                rw [hs] at hcm
                simp [hnc] at hcm
        · rw [if_neg hcm]
          exact hds

/-- `decl_start` stays strictly below a preceding genuine
(non-comment, non-blank) line start. -/
theorem walkBack_gt (text : Str) (i q : Nat) (hi : i < text.length) (hqi : q < i)
    (hiLS : LineStart text i) (hq : LineStart text q)
    (hne : lineStripAt text q ≠ [])
    (hnc : "//".data.isPrefixOf (lineStripAt text q) = false) :
    q < walkBack text i := by
  unfold walkBack
  rw [if_neg (by omega : ¬ i = 0)]
  apply walkBackGo_gt text q hq hne hnc i (i - 1) i (by omega) hqi (by omega)
  left
  rcases hiLS with h0 | ⟨h1, h2⟩
  · omega
  · exact h2

/-- Scanner invariant: the accumulated boundary list (newest first) is
decreasing, and its head is bracketed by a detected keyword line start
below the scan position.  The emitted boundary list is then ordered. -/
theorem goScanGo_chain (text : Str) : ∀ fuel i st acc,
    LineStart text st.lineStart →
    List.Chain' (fun a b => b ≤ a) acc →
    (∀ d, acc.head? = some d →
      ∃ q, d ≤ q ∧ q < i ∧ LineStart text q ∧ goKwAt (text.drop q) = true) →
    List.Chain' (· ≤ ·) (goScanGo text fuel i st acc)
  | 0, _, _, acc, _, hch, _ => by
    simp only [goScanGo]
    rw [List.chain'_reverse]
    exact hch
  | fuel + 1, i, st, acc, hLS, hch, hhd => by
    simp only [goScanGo]
    by_cases hil : i < text.length
    · rw [if_pos hil]
      have hhd1 : ∀ d, acc.head? = some d →
          ∃ q, d ≤ q ∧ q < i + 1 ∧ LineStart text q ∧
            goKwAt (text.drop q) = true := by
        intro d hd
        obtain ⟨q, h1, h2, h3, h4⟩ := hhd d hd
        exact ⟨q, h1, by omega, h3, h4⟩
      have hhd2 : ∀ d, acc.head? = some d →
          ∃ q, d ≤ q ∧ q < i + 2 ∧ LineStart text q ∧
            goKwAt (text.drop q) = true := by
        intro d hd
        obtain ⟨q, h1, h2, h3, h4⟩ := hhd d hd
        exact ⟨q, h1, by omega, h3, h4⟩
      by_cases h1 : text.getD i ' ' = '\n'
      · rw [if_pos h1]
        apply goScanGo_chain text fuel (i + 1) _ acc ?_ hch hhd1
        show LineStart text (i + 1)
        exact Or.inr ⟨by omega, by simpa using h1⟩
      · rw [if_neg h1]
        by_cases h2 : st.inLC = true
        · rw [if_pos h2]
          exact goScanGo_chain text fuel (i + 1) st acc hLS hch hhd1
        · rw [if_neg h2]
          by_cases h3 : st.inBC = true
          · rw [if_pos h3]
            by_cases h4 : text.getD i ' ' = '*' ∧ i + 1 < text.length ∧
                text.getD (i + 1) ' ' = '/'
            · rw [if_pos h4]
              exact goScanGo_chain text fuel (i + 2) _ acc hLS hch hhd2
            · rw [if_neg h4]
              exact goScanGo_chain text fuel (i + 1) st acc hLS hch hhd1
          · rw [if_neg h3]
            by_cases h5 : text.getD i ' ' = '/' ∧ i + 1 < text.length ∧
                text.getD (i + 1) ' ' = '/'
            · rw [if_pos h5]
              exact goScanGo_chain text fuel (i + 2) _ acc hLS hch hhd2
            · rw [if_neg h5]
              by_cases h6 : text.getD i ' ' = '/' ∧ i + 1 < text.length ∧
                  text.getD (i + 1) ' ' = '*'
              · rw [if_pos h6]
                exact goScanGo_chain text fuel (i + 2) _ acc hLS hch hhd2
              · rw [if_neg h6]
                by_cases h7 : st.inStr = true
                · rw [if_pos h7]
                  by_cases h8 : text.getD i ' ' = '\\' ∧ i + 1 < text.length
                  · rw [if_pos h8]
                    exact goScanGo_chain text fuel (i + 2) st acc hLS hch hhd2
                  · rw [if_neg h8]
                    by_cases h9 : text.getD i ' ' = '"'
                    · rw [if_pos h9]
                      exact goScanGo_chain text fuel (i + 1) _ acc hLS hch hhd1
                    · rw [if_neg h9]
                      exact goScanGo_chain text fuel (i + 1) st acc hLS hch hhd1
                · rw [if_neg h7]
                  by_cases h10 : st.inRaw = true
                  · rw [if_pos h10]
                    by_cases h11 : text.getD i ' ' = '`'
                    · rw [if_pos h11]
                      exact goScanGo_chain text fuel (i + 1) _ acc hLS hch hhd1
                    · rw [if_neg h11]
                      exact goScanGo_chain text fuel (i + 1) st acc hLS hch hhd1
                  · rw [if_neg h10]
                    by_cases h12 : text.getD i ' ' = '"'
                    · rw [if_pos h12]
                      exact goScanGo_chain text fuel (i + 1) _ acc hLS hch hhd1
                    · rw [if_neg h12]
                      by_cases h13 : text.getD i ' ' = '`'
                      · rw [if_pos h13]
                        exact goScanGo_chain text fuel (i + 1) _ acc hLS hch hhd1
                      · rw [if_neg h13]
                        apply goScanGo_chain text fuel (i + 1)
                        · show LineStart text
                            (if text.getD i ' ' = '{' then
                              { st with depth := st.depth + 1 }
                             else if text.getD i ' ' = '}' then
                              { st with depth := st.depth - 1 }
                             else st).lineStart
                          by_cases h14 : text.getD i ' ' = '{'
                          · rw [if_pos h14]
                            exact hLS
                          · rw [if_neg h14]
                            by_cases h15 : text.getD i ' ' = '}'
                            · rw [if_pos h15]
                              exact hLS
                            · rw [if_neg h15]
                              exact hLS
                        · by_cases h16 : ((if text.getD i ' ' = '{' then
                                { st with depth := st.depth + 1 }
                               else if text.getD i ' ' = '}' then
                                { st with depth := st.depth - 1 }
                               else st).depth = 0 ∧ i = st.lineStart ∧
                              goKwAt (text.drop i) = true)
                          · rw [if_pos h16]
                            obtain ⟨hd0, hdl, hdk⟩ := h16
                            have hiLS : LineStart text i := by
                              rw [hdl]
                              exact hLS
                            rw [List.chain'_cons']
                            refine ⟨?_, hch⟩
                            intro d hd
                            obtain ⟨q, hq1, hq2, hq3, hq4⟩ :=
                              hhd d (Option.mem_def.mp hd)
                            obtain ⟨hne, hnc⟩ := goKw_line text q hq4
                            have := walkBack_gt text i q hil hq2 hiLS hq3 hne hnc
                            omega
                          · rw [if_neg h16]
                            exact hch
                        · by_cases h16 : ((if text.getD i ' ' = '{' then
                                { st with depth := st.depth + 1 }
                               else if text.getD i ' ' = '}' then
                                { st with depth := st.depth - 1 }
                               else st).depth = 0 ∧ i = st.lineStart ∧
                              goKwAt (text.drop i) = true)
                          · rw [if_pos h16]
                            obtain ⟨hd0, hdl, hdk⟩ := h16
                            have hiLS : LineStart text i := by
                              rw [hdl]
                              exact hLS
                            intro d hd
                            simp only [List.head?_cons, Option.some.injEq] at hd
                            exact ⟨i, by rw [← hd]; exact walkBack_le text i,
                              by omega, hiLS, hdk⟩
                          · rw [if_neg h16]
                            exact hhd1
    · rw [if_neg hil]
      rw [List.chain'_reverse]
      exact hch

/-- The boundary list produced by the Go scanner is ordered. -/
theorem goBoundaries_chain (text : Str) :
    List.Chain' (· ≤ ·) (goBoundaries text) := by
  unfold goBoundaries
  apply goScanGo_chain text text.length 0 {} []
  · exact Or.inl rfl
  · exact List.chain'_nil
  · intro d hd
    simp at hd

/-- Joining the declaration slices of an ordered boundary list yields
the suffix of the text from the first boundary. -/
theorem declSegs_join (text : Str) : ∀ (b : Nat) (bs : List Nat),
    List.Chain' (· ≤ ·) (b :: bs) →
    joinL (declSegs text (b :: bs)) = text.drop b
  | b, [], _ => by
    rw [declSegs, joinL_cons, joinL_nil, List.append_nil]
  | b, b' :: rest, h => by
    rw [declSegs, joinL_cons, declSegs_join text b' rest h.tail]
    have hbb : b ≤ b' := (List.chain'_cons.mp h).1
    have hdd : text.drop b' = (text.drop b).drop (b' - b) := by
      rw [List.drop_drop]
      congr 1
      omega
    rw [hdd, List.take_append_drop]

/-- Whitespace-insensitive equality ignores per-slice right-stripping. -/
theorem filterNonWs_joinL_rstrip : ∀ (l : List Str),
    filterNonWs (joinL (l.map pyRstrip)) = filterNonWs (joinL l)
  | [] => rfl
  | x :: xs => by
    rw [List.map_cons, joinL_cons, joinL_cons, filterNonWs_append,
      filterNonWs_append, filterNonWs_pyRstrip, filterNonWs_joinL_rstrip xs]

/-- Mapping a function of the payload over an enumeration forgets the
indices. -/
theorem enum_map_snd_f {α β : Type} (f : α → β) (l : List α) :
    l.enum.map (fun p => f p.2) = l.map f := by
  have h : (fun p : Nat × α => f p.2) = f ∘ Prod.snd := rfl
  rw [h, ← List.map_map, List.enum_map_snd]

/-- A Python declaration match consumes at least one character. -/
theorem matchPyDeclAt_pos (l : Str) (n : Nat) (h : matchPyDeclAt l = some n) :
    1 ≤ n := by
  simp only [matchPyDeclAt] at h
  split at h
  · cases h
    omega
  · split at h
    · cases h
      omega
    · split at h
      · cases h
        omega
      · cases h

/-- Scanner invariant for the Python declaration scan: recorded
positions are strictly decreasing (newest first) and below the scan
position, so the emitted list is strictly increasing. -/
theorem pyScanGo_pairwise (text : Str) : ∀ fuel i atLS acc,
    List.Pairwise (fun a b => b < a) acc →
    (∀ a ∈ acc, a < i) →
    List.Pairwise (· < ·) (pyScanGo text fuel i atLS acc)
  | 0, _, _, acc, hpw, _ => by
    simp only [pyScanGo]
    rw [List.pairwise_reverse]
    exact hpw
  | fuel + 1, i, atLS, acc, hpw, hbd => by
    simp only [pyScanGo]
    by_cases hil : i < text.length
    · rw [if_pos hil]
      by_cases hls : atLS = true
      · rw [if_pos hls]
        rcases hm : matchPyDeclAt (text.drop i) with _ | n
        · exact pyScanGo_pairwise text fuel (i + 1) _ acc hpw
            (fun a ha => Nat.lt_succ_of_lt (hbd a ha))
        · have hn := matchPyDeclAt_pos _ n hm
          apply pyScanGo_pairwise text fuel (i + n) false (i :: acc)
          · exact List.pairwise_cons.mpr ⟨hbd, hpw⟩
          · intro a ha
            rcases List.mem_cons.mp ha with ha | ha
            · omega
            · have := hbd a ha
              omega
      · rw [if_neg hls]
        exact pyScanGo_pairwise text fuel (i + 1) _ acc hpw
          (fun a ha => Nat.lt_succ_of_lt (hbd a ha))
    · rw [if_neg hil]
      rw [List.pairwise_reverse]
      exact hpw

/-- The Python boundary list is ordered. -/
theorem pyBoundaries_chain (text : Str) :
    List.Chain' (· ≤ ·) (pyBoundaries text) := by
  unfold pyBoundaries
  have hp : List.Pairwise (· < ·) (pyScanGo text text.length 0 true []) := by
    apply pyScanGo_pairwise text text.length 0 true []
    · exact List.Pairwise.nil
    · intro a ha
      simp at ha
  have hf : List.Pairwise (· < ·)
      ((pyScanGo text text.length 0 true []).filter (pyBoundaryFilter text)) :=
    hp.sublist (List.filter_sublist _)
  exact (hf.imp (fun h => Nat.le_of_lt h)).chain'

/-- No per-declaration chunk carries the `file_overview` tag, so the
overview filter keeps all of them. -/
theorem goDeclChunks_filter (text pkg : Str) (bs : List Nat) :
    (goDeclChunks text pkg bs).filter
      (fun c => c.symbol_type ≠ some "file_overview".data) =
      goDeclChunks text pkg bs := by
  apply List.filter_eq_self.mpr
  intro c hc
  unfold goDeclChunks at hc
  obtain ⟨p, hp, hpc⟩ := List.mem_map.mp hc
  have hst : c.symbol_type = some (_go_symbol_name (pyRstrip p.2)).2 := by
    rw [← hpc]
  show decide (c.symbol_type ≠ some "file_overview".data) = true
  apply decide_eq_true
  rw [hst]
  intro h
  exact go_symbol_type_ne_overview (pyRstrip p.2) (Option.some.inj h)

/-- The texts of the per-declaration chunks are the right-stripped
declaration slices. -/
theorem goDeclChunks_map_text (text pkg : Str) (bs : List Nat) :
    (goDeclChunks text pkg bs).map Chunk.text =
      (declSegs text bs).map pyRstrip := by
  unfold goDeclChunks
  rw [List.map_map]
  exact enum_map_snd_f pyRstrip _

/-- Reconstruction for the Go chunker: the preamble slice followed by
the non-overview chunk texts reproduces the whole file up to
whitespace. -/
theorem chunk_go_reconstruct (text fp : Str) :
    filterNonWs (goPreambleSlice text ++
      joinL (((chunk_go text fp).filter
        (fun c => c.symbol_type ≠ some "file_overview".data)).map Chunk.text)) =
      filterNonWs text := by
  rcases hbs : goBoundaries text with _ | ⟨b, rest⟩
  · have hps : goPreambleSlice text = [] := by
      unfold goPreambleSlice
      rw [hbs]
    have hcg : (chunk_go text fp).filter
        (fun c => c.symbol_type ≠ some "file_overview".data) =
        [{ text := text, language := some "go".data,
           package := some (_extract_go_package text), symbol := some fp,
           symbol_type := some "file".data }] := by
      unfold chunk_go
      rw [hbs]
      rfl
    rw [hps, hcg, List.map_cons, List.map_nil, joinL_cons, joinL_nil,
      List.append_nil, List.nil_append]
  · have hchain : List.Chain' (· ≤ ·) (b :: rest) := by
      have h := goBoundaries_chain text
      rwa [hbs] at h
    have hps : goPreambleSlice text = text.take b := by
      unfold goPreambleSlice
      rw [hbs]
    have hcg : chunk_go text fp =
        (if pyStrip (text.take b) = [] then [] else
          [{ text := joinSep "\n".data ([pyStrip (text.take b), []] ++
               (if goExportedSymbols text (b :: rest) = [] then []
                else [("// Exported symbols: ".data ++
                  joinSep ", ".data (goExportedSymbols text (b :: rest)))])),
             language := some "go".data,
             package := some (_extract_go_package text), symbol := some fp,
             symbol_type := some "file_overview".data,
             imports := some (goImportSummary (pyStrip (text.take b))) : Chunk }]) ++
          goDeclChunks text (_extract_go_package text) (b :: rest) := by
      unfold chunk_go
      rw [hbs]
    rw [hcg, List.filter_append, goDeclChunks_filter]
    have hov : ∀ (l : List Chunk), l = [] ∨ (∃ c, l = [c] ∧
        c.symbol_type = some "file_overview".data) →
        l.filter (fun c => c.symbol_type ≠ some "file_overview".data) = [] := by
      intro l hl
      rcases hl with hl | ⟨c, hl, hc⟩
      · rw [hl]
        rfl
      · rw [hl, List.filter_cons]
        rw [if_neg]
        · rfl
        · show ¬ decide (c.symbol_type ≠ some "file_overview".data) = true
          rw [hc]
          decide
    rw [hov _ (by
      by_cases hpre : pyStrip (text.take b) = []
      · rw [if_pos hpre]
        exact Or.inl rfl
      · rw [if_neg hpre]
        exact Or.inr ⟨_, rfl, rfl⟩)]
    rw [List.nil_append, goDeclChunks_map_text, hps]
    rw [filterNonWs_append, filterNonWs_joinL_rstrip,
      declSegs_join text b rest hchain]
    rw [← filterNonWs_append, List.take_append_drop]

/-- Reconstruction for the Python chunker: the chunk texts (including
the stripped preamble chunk) reproduce the whole file up to
whitespace. -/
theorem chunk_python_reconstruct (text fp : Str) :
    filterNonWs (joinL ((chunk_python text fp).map Chunk.text)) =
      filterNonWs text := by
  rcases hbs : pyBoundaries text with _ | ⟨b, rest⟩
  · have hcg : chunk_python text fp =
        [{ text := text, language := some "python".data, symbol := some fp,
           symbol_type := some "file".data }] := by
      unfold chunk_python
      rw [hbs]
    rw [hcg, List.map_cons, List.map_nil, joinL_cons, joinL_nil,
      List.append_nil]
  · have hchain : List.Chain' (· ≤ ·) (b :: rest) := by
      have h := pyBoundaries_chain text
      rwa [hbs] at h
    have hcg : chunk_python text fp =
        (if pyStrip (text.take b) = [] then [] else
          [{ text := pyStrip (text.take b), language := some "python".data,
             symbol := some fp,
             symbol_type := some "file_overview".data : Chunk }]) ++
          (declSegs text (b :: rest)).enum.map (fun p =>
            { text := pyRstrip p.2, language := some "python".data,
              symbol := some (if (_extract_py_symbol (pyRstrip p.2)).1 = []
                  then "decl_".data ++ natToStr p.1
                  else (_extract_py_symbol (pyRstrip p.2)).1),
              symbol_type := some (_extract_py_symbol (pyRstrip p.2)).2 : Chunk }) := by
      unfold chunk_python
      rw [hbs]
    rw [hcg, List.map_append, joinL_append, filterNonWs_append]
    have hdecl : (((declSegs text (b :: rest)).enum.map (fun p =>
        { text := pyRstrip p.2, language := some "python".data,
          symbol := some (if (_extract_py_symbol (pyRstrip p.2)).1 = []
              then "decl_".data ++ natToStr p.1
              else (_extract_py_symbol (pyRstrip p.2)).1),
          symbol_type := some (_extract_py_symbol (pyRstrip p.2)).2 : Chunk })).map
        Chunk.text) = (declSegs text (b :: rest)).map pyRstrip := by
      rw [List.map_map]
      exact enum_map_snd_f pyRstrip _
    rw [hdecl, filterNonWs_joinL_rstrip, declSegs_join text b rest hchain]
    by_cases hpre : pyStrip (text.take b) = []
    · rw [if_pos hpre, List.map_nil, joinL_nil]
      have h1 : filterNonWs (text.take b) = [] := by
        rw [← filterNonWs_pyStrip, hpre]
        rfl
      have h2 : filterNonWs ([] : Str) = [] := rfl
      rw [h2, ← h1, ← filterNonWs_append, List.take_append_drop]
    · rw [if_neg hpre, List.map_cons, List.map_nil, joinL_cons, joinL_nil,
        List.append_nil]
      show filterNonWs (pyStrip (text.take b)) ++ filterNonWs (text.drop b) =
        filterNonWs text
      rw [filterNonWs_pyStrip, ← filterNonWs_append, List.take_append_drop]

/-- C4 (amended): for the Go and Python chunkers, concatenating all
emitted chunk texts in output order — prepending the boundary preamble
slice and dropping the synthesized `file_overview` chunk for Go —
reproduces the original file text up to whitespace normalisation; the
Markdown chunker does not reconstruct (see the counterexample: heading
lines are consumed into metadata). -/
theorem chunk_code_reconstruction (text fp : Str) :
    filterNonWs (goPreambleSlice text ++
      joinL (((chunk_go text fp).filter
        (fun c => c.symbol_type ≠ some "file_overview".data)).map Chunk.text)) =
      filterNonWs text ∧
    filterNonWs (joinL ((chunk_python text fp).map Chunk.text)) =
      filterNonWs text :=
  ⟨chunk_go_reconstruct text fp, chunk_python_reconstruct text fp⟩
